import Mathlib

/-!
# N-Queens search (`queens.c`, `queens_pth.c`): embedding and verification

The two C programs are embedded as pure Lean functions over explicit state.

* C `int` values are `Int` (row numbers, counters) or `Nat` (column indices, thread
  indices, sizes, which the programs only ever use with non-negative values).
  Counter overflow is not modelled; the `char` flag `show` of `queens.c` is modelled
  with its 8-bit wrap-around.
* Heap arrays are lists.  Every array access is bounds-checked: an access outside the
  allocated block is undefined behaviour in C and makes the embedded function
  return `none`.
* Recursion is driven by a recursion budget (first `Nat` argument of `nqueens`);
  exhausting the budget also yields `none`.  The theorems show that a budget of
  `nq + 1` always suffices.
-/

/-! ## Shared control-flow helpers -/

/-- Sequential composition of a loop body over the successive values of the loop
variable; the loop stops with `none` as soon as one iteration faults. -/
def forEach {α σ : Type} : List α → (α → σ → Option σ) → σ → Option σ
  | [], _, s => some s
  | a :: rest, body, s =>
    match body a s with
    | none => none
    | some s1 => forEach rest body s1

/-- Values taken by `i` in `for (i = start; i <= end; i++)`. -/
def rowsFromTo (start end_ : Int) : List Int :=
  (List.range (end_ + 1 - start).toNat).map (fun k : Nat => start + (k : Int))

/-! ## `queens.c` : the sequential program -/

namespace Queens

/-- Default number of queens (`#define NUM_QUEENS 8`). -/
def NUM_QUEENS : Int := 8
/-- Value of `#define ITS_SAFE 0`. -/
def ITS_SAFE : Int := 0
/-- Value of `#define NOT_SAFE 1`. -/
def NOT_SAFE : Int := 1

/-- The global variables of `queens.c` that the search touches (`nq` is constant
during the search and is passed as a parameter). -/
structure State where
  /-- Global `int solutions`. -/
  solutions : Int
  /-- Global `int *queen_on`, a block of `nq` ints. -/
  queen_on : List Int
  /-- Global `char **board`, `nq` rows of `nq` chars. -/
  board : List (List Char)
  /-- Global `char show = 1` (named `showFlag` since `show` is reserved). -/
  showFlag : Int

/-- Function `is_safe (i, j, col)` of `queens.c`: reads `queen_on[j]`. -/
def is_safe (queen_on : List Int) (i : Int) (j col : Nat) : Option Int :=
  match queen_on[j]? with
  | none => none
  | some p =>
    if p = i then some ITS_SAFE
    else if ((p - i).natAbs : Int) = (col : Int) - (j : Int) then some ITS_SAFE
    else some NOT_SAFE

/-- The loop `for (j = 0; j < col && is_safe(i, j, col); j++);` started at `j` with
`n = col - j` iterations left; the result is the value of `j` when the loop stops. -/
def scan (queen_on : List Int) (i : Int) (col : Nat) : Nat → Nat → Option Nat
  | 0, j => some j
  | n + 1, j =>
    match is_safe queen_on i j col with
    | none => none
    | some r => if r ≠ 0 then scan queen_on i col n (j + 1) else some j

/-- The value stored by `show--` in a `char` holding `c`: 8-bit wrap-around, for a
signed (`charSigned = true`, e.g. gcc on x86) or unsigned plain `char`. -/
def decChar (charSigned : Bool) (c : Int) : Int :=
  if charSigned then (c - 1 + 128) % 256 - 128 else (c - 1) % 256

/-- The value written to `board[i][j]` when `queen_on[i] = qi`:
`j == queen_on[i] ? 'Q' : ((i + j) & 1) ? '_' : '_'`. -/
def cell (qi : Int) (i j : Nat) : Char :=
  if (j : Int) = qi then 'Q' else if (i + j) % 2 = 1 then '_' else '_'

/-- The assignment `board[i][j] = c`. -/
def setCell (board : List (List Char)) (i j : Nat) (c : Char) : Option (List (List Char)) :=
  match board[i]? with
  | none => none
  | some row => if j < row.length then some (board.set i (row.set j c)) else none

/-- The two nested loops of `nqueens` that copy the placement into `board`. -/
def capture (nq : Nat) (queen_on : List Int) (board : List (List Char)) :
    Option (List (List Char)) :=
  forEach (List.range nq) (fun i b =>
    forEach (List.range nq) (fun j b1 =>
      match queen_on[i]? with
      | none => none
      | some qi => setCell b1 i j (cell qi i j)) b) board

/-- The assignment `queen_on[col] = i`. -/
def setQueen (st : State) (col : Nat) (i : Int) : Option State :=
  if col < st.queen_on.length then some { st with queen_on := st.queen_on.set col i }
  else none

/-- Function `nqueens (col)` of `queens.c`; the first `Nat` is the recursion budget. -/
def nqueens (charSigned : Bool) (nq : Nat) : Nat → Nat → State → Option State
  | 0, _, _ => none
  | fuel + 1, col, st =>
    if col = nq then
      let st1 : State := { st with solutions := st.solutions + 1 }
      let st2 : State := { st1 with showFlag := decChar charSigned st1.showFlag }
      if st1.showFlag > 0 then
        match capture nq st2.queen_on st2.board with
        | none => none
        | some b => some { st2 with board := b }
      else some st2
    else
      forEach (List.range nq) (fun i s =>
        match scan s.queen_on (i : Int) col col 0 with
        | none => none
        | some j =>
          if j < col then some s
          else
            match setQueen s col (i : Int) with
            | none => none
            | some s1 => nqueens charSigned nq fuel (col + 1) s1) st

end Queens

/-! ## `queens_pth.c` : the parallel program -/

namespace QueensPth

/-- Default number of queens (`#define NUM_QUEENS 8`). -/
def NUM_QUEENS : Int := 8
/-- Default number of threads (`#define NUM_THREAD 8`). -/
def NUM_THREAD : Int := 8
/-- Value of `#define ITS_SAFE 0`. -/
def ITS_SAFE : Int := 0
/-- Value of `#define NOT_SAFE 1`. -/
def NOT_SAFE : Int := 1

/-- The shared heap tables of `queens_pth.c` (`nq` and `nthreads` are constant once
`main` has read its arguments and are passed as parameters). -/
structure State where
  /-- Global `int *solutions`, a block of `nq` ints. -/
  solutions : List Int
  /-- Global `int **queen_on`, `nq` rows of `nq` ints. -/
  queen_on : List (List Int)

/-- Function `is_safe (i, j, col, thr_index)`: reads `queen_on[thr_index][j]`. -/
def is_safe (queen_on : List (List Int)) (i : Int) (j col thr_index : Nat) : Option Int :=
  match queen_on[thr_index]? with
  | none => none
  | some row =>
    match row[j]? with
    | none => none
    | some p =>
      if p = i then some ITS_SAFE
      else if ((p - i).natAbs : Int) = (col : Int) - (j : Int) then some ITS_SAFE
      else some NOT_SAFE

/-- The loop `for (j = 0; j < col && is_safe(i, j, col, thr_index); j++);` started
at `j` with `n = col - j` iterations left; the result is the final value of `j`. -/
def scan (queen_on : List (List Int)) (i : Int) (col thr_index : Nat) : Nat → Nat → Option Nat
  | 0, j => some j
  | n + 1, j =>
    match is_safe queen_on i j col thr_index with
    | none => none
    | some r => if r ≠ 0 then scan queen_on i col thr_index n (j + 1) else some j

/-- Local `start` of `nqueens`: `(col > 0) ? 0 : thr_index * (nq / nthreads)`. -/
def start (nq nthreads col thr_index : Nat) : Int :=
  if col > 0 then 0 else (thr_index : Int) * ((nq / nthreads : Nat) : Int)

/-- Local `end` of `nqueens`: `((col > 0) || (thr_index == nthreads - 1)) ? nq - 1 :
(thr_index + 1) * (nq / nthreads) - 1`. -/
def end_ (nq nthreads col thr_index : Nat) : Int :=
  if col > 0 ∨ (thr_index : Int) = (nthreads : Int) - 1 then (nq : Int) - 1
  else ((thr_index : Int) + 1) * ((nq / nthreads : Nat) : Int) - 1

/-- The statement `solutions[thr_index]++`. -/
def incSolutions (st : State) (thr_index : Nat) : Option State :=
  match st.solutions[thr_index]? with
  | none => none
  | some v => some { st with solutions := st.solutions.set thr_index (v + 1) }

/-- The assignment `queen_on[thr_index][col] = i`. -/
def setQueen (st : State) (thr_index col : Nat) (i : Int) : Option State :=
  match st.queen_on[thr_index]? with
  | none => none
  | some row =>
    if col < row.length then
      some { st with queen_on := st.queen_on.set thr_index (row.set col i) }
    else none

/-- Function `nqueens (col, thr_index)` of `queens_pth.c`; the first `Nat` is the
recursion budget.  The division `nq / nthreads`, evaluated when `col` is zero, faults
when `nthreads` is zero.  Unlike the sequential function, the `col == nq` branch does
not return. -/
def nqueens (nq nthreads : Nat) : Nat → Nat → Nat → State → Option State
  | 0, _, _, _ => none
  | fuel + 1, col, thr_index, st =>
    if col = 0 ∧ nthreads = 0 then none
    else
      match (if col = nq then incSolutions st thr_index else some st) with
      | none => none
      | some st1 =>
        forEach (rowsFromTo (start nq nthreads col thr_index) (end_ nq nthreads col thr_index))
          (fun i s =>
            match scan s.queen_on i col thr_index col 0 with
            | none => none
            | some j =>
              if j < col then some s
              else
                match setQueen s thr_index col i with
                | none => none
                | some s1 => nqueens nq nthreads fuel (col + 1) thr_index s1) st1

/-- Function `start_thread`: `solutions[thr_index] = 0; nqueens (0, thr_index);`. -/
def start_thread (nq nthreads fuel thr_index : Nat) (st : State) : Option State :=
  if thr_index < st.solutions.length then
    nqueens nq nthreads fuel 0 thr_index { st with solutions := st.solutions.set thr_index 0 }
  else none

end QueensPth

/-! ## Reference enumeration of the search tree

Pure functions used to describe what the two programs compute: the list of complete
placements in the order in which the depth-first search reaches them. -/

namespace Search

/-- `conflictFree ps d i`: no entry of `ps` equals `i`, and no entry is at
row-distance equal to its column distance from the candidate, the first entry being
`d` columns away, the next `d - 1`, and so on. -/
def conflictFree : List Int → Nat → Int → Bool
  | [], _, _ => true
  | p :: ps, d, i => (p != i && (p - i).natAbs != d) && conflictFree ps (d - 1) i

/-- Row `i` may be put in the column that follows the placed columns `p`. -/
def safeRow (p : List Int) (i : Int) : Bool := conflictFree p p.length i

/-- Candidate rows `0 .. nq - 1` in increasing order. -/
def rows (nq : Nat) : List Int := (List.range nq).map (fun k : Nat => (k : Int))

/-- Complete placements that extend `p` by `r` further columns, in search order. -/
def solsFrom (nq : Nat) : Nat → List Int → List (List Int)
  | 0, p => [p]
  | r + 1, p =>
    (rows nq).flatMap (fun i => if safeRow p i then solsFrom nq r (p ++ [i]) else [])

/-- Placements reached below column 0 when column 0 ranges over `firstRows`. -/
def solsOver (nq : Nat) (firstRows : List Int) : List (List Int) :=
  firstRows.flatMap (fun i => solsFrom nq (nq - 1) [i])

/-- The placed columns `p` hold rows of the board and no two of them attack each
other (same row, or row distance equal to column distance). -/
def Valid (nq : Nat) (p : List Int) : Prop :=
  (∀ k (h : k < p.length), 0 ≤ p[k] ∧ p[k] < (nq : Int)) ∧
  ∀ a b (hb : b < p.length) (hab : a < b),
    p[a] ≠ p[b] ∧ ((p[a] - p[b]).natAbs : Int) ≠ (b : Int) - (a : Int)

/-- A list of rows, one per column, is a placement of `nq` mutually non-attacking
queens on the `nq × nq` board. -/
def IsPlacement (nq : Nat) (l : List Int) : Prop :=
  l.length = nq ∧ Valid nq l

/-- The claim's notion of a non-attacking placement `q : {0..N-1} → {0..N-1}`. -/
def NonAttacking {nq : Nat} (q : Fin nq → Fin nq) : Prop :=
  ∀ a b : Fin nq, a < b →
    ¬ (q a = q b ∨ |((q a : Nat) : Int) - ((q b : Nat) : Int)| = ((b : Nat) : Int) - ((a : Nat) : Int))

instance {nq : Nat} (q : Fin nq → Fin nq) : Decidable (NonAttacking q) := by
  unfold NonAttacking; infer_instance

/-- The list of rows, column by column, of a placement given as a function. -/
def toRows {nq : Nat} (q : Fin nq → Fin nq) : List Int :=
  List.ofFn (fun a => (((q a : Fin nq) : Nat) : Int))

end Search

namespace Queens

/-- The part of the state that a completed placement changes besides `queen_on`. -/
structure View where
  /-- Value of `solutions`. -/
  solutions : Int
  /-- Value of `show`. -/
  showFlag : Int
  /-- Contents of `board`. -/
  board : List (List Char)

/-- Projection of a state on its `View`. -/
def view (st : State) : View := ⟨st.solutions, st.showFlag, st.board⟩

/-- The grid that the capture loops write for the placement `q`. -/
def render (nq : Nat) (q : List Int) : List (List Char) :=
  (List.range nq).map (fun i => (List.range nq).map (fun j => cell (q.getD i 0) i j))

/-- Effect of reaching `col == nq` with placement `q`. -/
def complete (charSigned : Bool) (nq : Nat) (v : View) (q : List Int) : View :=
  ⟨v.solutions + 1, decChar charSigned v.showFlag,
    if v.showFlag > 0 then render nq q else v.board⟩

/-- Effect of reaching the placements `sols` one after the other. -/
def absorb (charSigned : Bool) (nq : Nat) (v : View) (sols : List (List Int)) : View :=
  sols.foldl (complete charSigned nq) v

/-- The board has the shape allocated by `main`: `nq` rows of `nq` cells. -/
def GoodDims (nq : Nat) (board : List (List Char)) : Prop :=
  board.length = nq ∧ ∀ row ∈ board, row.length = nq

end Queens

namespace QueensPth

/-- Candidate rows of the loop of `nqueens (col, thr_index)`. -/
def rowsAt (nq nthreads col thr_index : Nat) : List Int :=
  rowsFromTo (start nq nthreads col thr_index) (end_ nq nthreads col thr_index)

/-- Placements reached below a call with `r` columns left whose loop ranges over the
rows `L`, the deeper columns ranging over all rows. -/
def levelSols (nq : Nat) (L : List Int) : Nat → List Int → List (List Int)
  | 0, p => [p]
  | r + 1, p =>
    L.flatMap (fun i => if Search.safeRow p i then Search.solsFrom nq r (p ++ [i]) else [])

/-- Worker `t` left the slots of every other worker as they were in `st`. -/
def Frame (t : Nat) (st st1 : State) : Prop :=
  st1.queen_on.length = st.queen_on.length ∧ st1.solutions.length = st.solutions.length ∧
  ∀ u, u ≠ t → st1.queen_on[u]? = st.queen_on[u]? ∧ st1.solutions[u]? = st.solutions[u]?

/-- The tables have the shape allocated by `main`: `nq` counters and `nq` rows of
`nq` ints. -/
def WellFormed (nq : Nat) (st : State) : Prop :=
  st.solutions.length = nq ∧ st.queen_on.length = nq ∧ ∀ row ∈ st.queen_on, row.length = nq

/-- The worker threads of `main`, each run to completion, in creation order
(`pthread_create (..., start_thread, &thr_num[i])` for `i = 0 .. nthreads - 1`). -/
def run_workers (nq nthreads fuel : Nat) (st : State) : Option State :=
  forEach (List.range nthreads) (fun i s => start_thread nq nthreads fuel i s) st

/-- The summation loop of `main`: `total = 0; for (i = 0; i < nthreads; i++)
total += solutions[i];`. -/
def sum_solutions (nthreads : Nat) (st : State) : Option Int :=
  forEach (List.range nthreads) (fun i total =>
    match st.solutions[i]? with
    | none => none
    | some v => some (total + v)) 0

/-- The value of `total` that `main` prints, from the tables as allocated. -/
def main_total (nq nthreads fuel : Nat) (st : State) : Option Int :=
  match run_workers nq nthreads fuel st with
  | none => none
  | some st1 => sum_solutions nthreads st1

/-- The `switch (argc)` of `main`, on the `atoi` values of `argv[1 ..]`: the pair
`(nq, nthreads)`, or `none` for `exit (EXIT_FAILURE)`. -/
def main_params (args : List Int) : Option (Int × Int) :=
  match args with
  | [] => some (NUM_QUEENS, NUM_THREAD)
  | [a1] =>
    let nthreads := NUM_THREAD
    let nq := a1
    if nq < 1 then some (NUM_QUEENS, nthreads) else some (nq, nthreads)
  | [a1, a2] =>
    let nthreads := a2
    let nq := a1
    if nq < 1 ∨ nthreads < 1 ∨ nthreads > nq then some (NUM_QUEENS, NUM_THREAD)
    else some (nq, nthreads)
  | _ => none

/-- Actions of `main` on the worker threads and their result slots. -/
inductive Action where
  /-- The call `pthread_create (&thr_ids[i], ...)`. -/
  | create (i : Nat)
  /-- The call `pthread_join (thr_ids[i], NULL)`. -/
  | join (i : Nat)
  /-- The read of `solutions[i]` in `total += solutions[i]`. -/
  | read (i : Nat)
  deriving DecidableEq, Repr

/-- The sequence of actions of the two loops of `main`: the creation loop, then the
loop that joins thread `i` and adds `solutions[i]` to `total`. -/
def main_actions (nthreads : Nat) : List Action :=
  let created := (List.range nthreads).foldl (fun acts i => acts ++ [Action.create i]) []
  (List.range nthreads).foldl (fun acts i => acts ++ [Action.join i, Action.read i]) created

end QueensPth

/-- The known numbers of solutions, as pairs `(N, count)`, for `N = 1 .. 8`. -/
def knownCounts : List (Nat × Nat) :=
  [(1, 1), (2, 0), (3, 0), (4, 2), (5, 10), (6, 4), (7, 40), (8, 92)]

namespace QueensPth

/-- The ordering that holds of every read of a result slot in `acts`: it comes after
the join of every worker. -/
def ReadsAfterAllJoins (nthreads : Nat) (acts : List Action) : Prop :=
  ∀ m i : Nat, acts[m]? = some (Action.read i) →
    ∀ j : Nat, j < nthreads → ∃ n : Nat, n < m ∧ acts[n]? = some (Action.join j)

/-- The join-then-read ordering of `acts`: every result slot `i < nthreads` is read,
and every read of a slot `i` comes after the creation of every worker, after the join
of worker `i` and of every worker of smaller index, and before the join of every
worker of larger index (a join is before the read exactly when its index is at most
`i`). -/
def ReadsAfterOwnJoin (nthreads : Nat) (acts : List Action) : Prop :=
  (∀ i : Nat, i < nthreads → ∃ m : Nat, acts[m]? = some (Action.read i)) ∧
  ∀ m i : Nat, acts[m]? = some (Action.read i) →
    i < nthreads ∧
    (∀ j : Nat, j < nthreads → ∃ n : Nat, n < m ∧ acts[n]? = some (Action.create j)) ∧
    (∀ j : Nat, j ≤ i → ∃ n : Nat, n < m ∧ acts[n]? = some (Action.join j)) ∧
    (∀ j : Nat, i < j → j < nthreads → ∃ n : Nat, m < n ∧ acts[n]? = some (Action.join j)) ∧
    (∀ n j : Nat, acts[n]? = some (Action.join j) → (n < m ↔ j ≤ i))

end QueensPth

namespace Queens

/-- Cell `(i, j)` of the board holds the queen marker `'Q'`. -/
def isQueen (board : List (List Char)) (i j : Nat) : Prop :=
  (board[i]?).bind (fun row => row[j]?) = some 'Q'

/-- The `nq × nq` grid has exactly one `'Q'` in every row and in every column, and
no two `'Q'` cells on a common diagonal. -/
def QueenGrid (nq : Nat) (board : List (List Char)) : Prop :=
  (∀ i, i < nq → ∃! j, j < nq ∧ isQueen board i j) ∧
  (∀ j, j < nq → ∃! i, i < nq ∧ isQueen board i j) ∧
  ∀ i1 j1 i2 j2, i1 < nq → j1 < nq → i2 < nq → j2 < nq →
    isQueen board i1 j1 → isQueen board i2 j2 → (i1, j1) ≠ (i2, j2) →
    |(i1 : Int) - (i2 : Int)| ≠ |(j1 : Int) - (j2 : Int)|

end Queens

/-- The state in which `main` of `queens.c` calls `nqueens (0)`: `solutions = 0`,
`show = 1`, and freshly allocated `queen_on` and `board` (whose unspecified contents
are taken to be zeros and blanks). -/
def Queens.init (nq : Nat) : Queens.State :=
  ⟨0, List.replicate nq 0, List.replicate nq (List.replicate nq ' '), 1⟩

/-- The tables as `main` of `queens_pth.c` allocates them: `queen_on` zeroed, and
`solutions` with unspecified contents (taken to be zeros). -/
def QueensPth.init (nq : Nat) : QueensPth.State :=
  ⟨List.replicate nq 0, List.replicate nq (List.replicate nq 0)⟩

namespace Search

/-- Checks that the rows `rest`, put one after the other in the columns that follow
the placed columns `p`, are rows of the board and each safe for the columns before. -/
def checkFrom (nq : Nat) : List Int → List Int → Bool
  | _, [] => true
  | p, x :: xs =>
    (decide (0 ≤ x) && decide (x < (nq : Int)) && safeRow p x) && checkFrom nq (p ++ [x]) xs

/-- A number that tells two lists of rows below 16 apart. -/
def key (q : List Int) : Nat := q.foldl (fun a x => a * 16 + x.toNat) 0

/-- The numbers of the list increase strictly from each entry to the next. -/
def increasing : List Nat → Bool
  | [] => true
  | [_] => true
  | a :: b :: rest => decide (a < b) && increasing (b :: rest)

/-- A list of 131 placements of nine queens (the first 131 that the search reaches). -/
def nineSolutions : List (List Int) :=
  [
  [0, 2, 5, 7, 1, 3, 8, 6, 4], [0, 2, 6, 1, 7, 4, 8, 3, 5], [0, 2, 7, 5, 8, 1, 4, 6, 3],
   [0, 3, 1, 7, 5, 8, 2, 4, 6], [0, 3, 5, 2, 8, 1, 7, 4, 6], [0, 3, 5, 7, 1, 4, 2, 8, 6],
   [0, 3, 6, 2, 7, 1, 4, 8, 5], [0, 3, 6, 8, 1, 4, 7, 5, 2], [0, 3, 7, 2, 8, 6, 4, 1, 5],
   [0, 4, 1, 5, 8, 2, 7, 3, 6], [0, 4, 6, 1, 5, 2, 8, 3, 7], [0, 4, 6, 8, 2, 7, 1, 3, 5],
   [0, 4, 6, 8, 3, 1, 7, 5, 2], [0, 4, 8, 1, 5, 7, 2, 6, 3], [0, 4, 8, 5, 3, 1, 7, 2, 6],
   [0, 5, 1, 8, 6, 3, 7, 2, 4], [0, 5, 3, 1, 6, 8, 2, 4, 7], [0, 5, 3, 1, 7, 2, 8, 6, 4],
   [0, 5, 7, 2, 6, 3, 1, 8, 4], [0, 5, 7, 4, 1, 3, 8, 6, 2], [0, 5, 8, 4, 1, 7, 2, 6, 3],
   [0, 6, 3, 5, 8, 1, 4, 2, 7], [0, 6, 3, 7, 2, 4, 8, 1, 5], [0, 6, 3, 7, 2, 8, 5, 1, 4],
   [0, 6, 4, 7, 1, 8, 2, 5, 3], [0, 7, 3, 1, 6, 8, 5, 2, 4], [0, 7, 4, 2, 5, 8, 1, 3, 6],
   [0, 7, 4, 2, 8, 6, 1, 3, 5], [1, 3, 0, 6, 8, 5, 2, 4, 7], [1, 3, 6, 0, 2, 8, 5, 7, 4],
   [1, 3, 7, 2, 8, 5, 0, 4, 6], [1, 3, 8, 6, 2, 0, 5, 7, 4], [1, 3, 8, 6, 4, 2, 0, 5, 7],
   [1, 4, 6, 0, 2, 7, 5, 3, 8], [1, 4, 6, 3, 0, 2, 8, 5, 7], [1, 4, 6, 8, 2, 5, 3, 0, 7],
   [1, 4, 6, 8, 3, 7, 0, 2, 5], [1, 4, 7, 0, 2, 5, 8, 6, 3], [1, 4, 7, 0, 8, 5, 2, 6, 3],
   [1, 4, 7, 5, 8, 2, 0, 3, 6], [1, 4, 7, 5, 8, 2, 0, 6, 3], [1, 4, 8, 3, 0, 7, 5, 2, 6],
   [1, 5, 0, 2, 6, 8, 3, 7, 4], [1, 5, 0, 6, 3, 7, 2, 4, 8], [1, 5, 0, 6, 4, 2, 8, 3, 7],
   [1, 5, 0, 8, 4, 7, 3, 6, 2], [1, 5, 2, 0, 7, 3, 8, 6, 4], [1, 5, 8, 2, 4, 7, 3, 0, 6],
   [1, 6, 4, 0, 8, 3, 5, 7, 2], [1, 6, 4, 7, 0, 3, 5, 2, 8], [1, 6, 8, 5, 2, 0, 3, 7, 4],
   [1, 7, 0, 3, 6, 8, 5, 2, 4], [1, 7, 4, 2, 8, 5, 3, 0, 6], [1, 7, 5, 8, 2, 0, 3, 6, 4],
   [1, 8, 4, 2, 7, 3, 6, 0, 5], [1, 8, 5, 2, 4, 7, 0, 3, 6], [1, 8, 5, 2, 6, 3, 0, 7, 4],
   [1, 8, 5, 3, 6, 0, 2, 4, 7], [2, 0, 3, 6, 8, 1, 4, 7, 5], [2, 0, 5, 7, 4, 1, 3, 8, 6],
   [2, 0, 6, 1, 7, 5, 3, 8, 4], [2, 0, 6, 4, 7, 1, 3, 5, 8], [2, 0, 7, 3, 8, 6, 4, 1, 5],
   [2, 0, 8, 6, 4, 1, 7, 5, 3], [2, 4, 1, 7, 0, 3, 6, 8, 5], [2, 4, 1, 7, 0, 6, 3, 5, 8],
   [2, 4, 6, 0, 3, 1, 7, 5, 8], [2, 4, 7, 1, 8, 5, 0, 6, 3], [2, 4, 7, 1, 8, 6, 0, 3, 5],
   [2, 4, 8, 1, 3, 6, 0, 7, 5], [2, 4, 8, 3, 0, 6, 1, 5, 7], [2, 5, 1, 6, 0, 3, 7, 4, 8],
   [2, 5, 1, 8, 4, 0, 7, 3, 6], [2, 5, 7, 0, 3, 6, 4, 1, 8], [2, 5, 7, 0, 4, 8, 1, 3, 6],
   [2, 5, 7, 1, 3, 8, 6, 4, 0], [2, 5, 7, 4, 0, 8, 6, 1, 3], [2, 5, 7, 4, 1, 8, 6, 3, 0],
   [2, 5, 8, 0, 7, 3, 1, 6, 4], [2, 5, 8, 1, 4, 6, 3, 0, 7], [2, 5, 8, 1, 7, 0, 3, 6, 4],
   [2, 5, 8, 4, 7, 0, 3, 1, 6], [2, 5, 8, 6, 0, 3, 1, 4, 7], [2, 5, 8, 6, 1, 3, 7, 0, 4],
   [2, 5, 8, 6, 3, 0, 7, 1, 4], [2, 6, 1, 3, 7, 0, 4, 8, 5], [2, 6, 1, 7, 4, 8, 0, 5, 3],
   [2, 6, 1, 7, 5, 3, 0, 4, 8], [2, 6, 3, 1, 8, 4, 0, 7, 5], [2, 6, 3, 1, 8, 5, 0, 4, 7],
   [2, 6, 3, 7, 4, 8, 0, 5, 1], [2, 6, 8, 0, 4, 1, 7, 5, 3], [2, 6, 8, 3, 1, 4, 7, 5, 0],
   [2, 7, 1, 3, 8, 6, 4, 0, 5], [2, 7, 3, 6, 8, 1, 4, 0, 5], [2, 7, 5, 0, 8, 1, 4, 6, 3],
   [2, 7, 5, 3, 8, 0, 4, 6, 1], [2, 7, 5, 8, 1, 4, 0, 3, 6], [2, 8, 1, 4, 7, 0, 6, 3, 5],
   [2, 8, 3, 0, 7, 5, 1, 6, 4], [2, 8, 3, 1, 7, 5, 0, 6, 4], [2, 8, 3, 7, 4, 1, 5, 0, 6],
   [2, 8, 5, 1, 4, 6, 0, 3, 7], [2, 8, 5, 3, 0, 6, 4, 1, 7], [2, 8, 5, 7, 1, 3, 0, 6, 4],
   [3, 0, 2, 5, 8, 1, 7, 4, 6], [3, 0, 4, 1, 8, 6, 2, 7, 5], [3, 0, 4, 7, 1, 6, 2, 5, 8],
   [3, 0, 4, 8, 1, 5, 7, 2, 6], [3, 0, 6, 8, 1, 5, 7, 2, 4], [3, 0, 8, 5, 2, 6, 1, 7, 4],
   [3, 1, 4, 7, 0, 2, 5, 8, 6], [3, 1, 6, 2, 0, 7, 4, 8, 5], [3, 1, 6, 8, 0, 4, 7, 5, 2],
   [3, 1, 6, 8, 0, 7, 4, 2, 5], [3, 1, 7, 2, 8, 6, 4, 0, 5], [3, 1, 8, 2, 5, 7, 0, 4, 6],
   [3, 1, 8, 4, 0, 7, 5, 2, 6], [3, 5, 0, 4, 1, 7, 2, 6, 8], [3, 5, 0, 8, 4, 7, 1, 6, 2],
   [3, 5, 0, 8, 6, 2, 7, 1, 4], [3, 5, 2, 8, 1, 4, 7, 0, 6], [3, 5, 2, 8, 1, 7, 4, 6, 0],
   [3, 5, 2, 8, 6, 0, 7, 1, 4], [3, 5, 7, 1, 4, 0, 8, 6, 2], [3, 5, 7, 1, 4, 6, 8, 0, 2],
   [3, 5, 7, 1, 6, 0, 2, 4, 8], [3, 5, 7, 2, 0, 6, 4, 1, 8], [3, 5, 8, 2, 0, 7, 1, 4, 6],
   [3, 6, 0, 2, 8, 5, 7, 4, 1], [3, 6, 0, 5, 8, 1, 7, 4, 2]]

end Search

/-- The `switch (argc)` of `main` of `queens.c`, on the `atoi` values of
`argv[1 ..]`: the value of `nq`, or `none` for `exit (EXIT_FAILURE)`. -/
def Queens.main_params (args : List Int) : Option Int :=
  match args with
  | [] => some Queens.NUM_QUEENS
  | [a1] =>
    let nq := a1
    if nq < 1 then some Queens.NUM_QUEENS else some nq
  | _ => none

namespace Queens

/-- The text printed for one cell by `printf (board[i][j] == 'Q' ? " Q " : " + ")`. -/
def cellText (c : Char) : String := if c = 'Q' then " Q " else " + "

/-- Function `pboard` of `queens.c`: the text it writes to stdout. -/
def pboard (nq : Nat) (board : List (List Char)) : Option String :=
  forEach (List.range nq) (fun i out =>
    match forEach (List.range nq) (fun j out1 =>
        match board[i]? with
        | none => none
        | some row =>
          match row[j]? with
          | none => none
          | some c => some (out1 ++ cellText c)) out with
    | none => none
    | some out2 => some (out2 ++ "\n")) ""

/-- The text of the `printf` of `main` that reports the count:
`"\nThere are %d solutions for %d queens. Here's one of them:\n\n"`. -/
def count_line (solutions : Int) (nq : Nat) : String :=
  "\nThere are " ++ toString solutions ++ " solutions for " ++ toString nq ++
    " queens. Here\x27s one of them:\n\n"

/-- Concatenation of a list of texts, in order. -/
def joinAll (l : List String) : String := l.foldr (fun s acc => s ++ acc) ""

/-- The text of a grid of cells printed line by line, each line ended by a newline. -/
def gridText (grid : List (List String)) : String :=
  joinAll (grid.map (fun cells => joinAll cells ++ "\n"))

/-- The cell `(i, j)` of a grid of texts holds the queen marker `" Q "`. -/
def isMarker (grid : List (List String)) (i j : Nat) : Prop :=
  (grid[i]?).bind (fun cells => cells[j]?) = some " Q "

end Queens

/-! ## Call traces

The two searches once more, with a log of their calls: every call of `nqueens`
appends, when it returns, a record of its column, of the recursion budget it was
given and of the placed rows (`queen_on`, resp. `queen_on[thr_index]`) on entry and
on return.  Erasing the log gives back `nqueens`. -/

/-- Record of one call of `nqueens`. -/
structure Call where
  /-- Argument `col` of the call. -/
  col : Nat
  /-- Recursion budget of the call. -/
  budget : Nat
  /-- Rows `queen_on[0 ..]` of the searching thread when the call starts. -/
  entry : List Int
  /-- Rows `queen_on[0 ..]` of the searching thread when the call returns. -/
  exit_ : List Int
  deriving DecidableEq, Repr

/-- What holds of a logged call when the initial call had `col + budget = total`:
its column is at most `nq`, its depth is its column, the rows placed in the columns
before `col` are rows of the board that do not attack each other, and they are the
same on return. -/
def CallOK (nq total : Nat) (c : Call) : Prop :=
  c.col ≤ nq ∧ c.col + c.budget = total ∧ c.entry.length = nq ∧ c.exit_.length = nq ∧
  Search.Valid nq (c.entry.take c.col) ∧ c.exit_.take c.col = c.entry.take c.col

/-- Function `nqueens (col)` of `queens.c` with the log of its calls. -/
def Queens.nqueensT (charSigned : Bool) (nq : Nat) :
    Nat → Nat → Queens.State × List Call → Option (Queens.State × List Call)
  | 0, _, _ => none
  | fuel + 1, col, sl =>
    Option.map (fun r => (r.1, r.2 ++ [⟨col, fuel + 1, sl.1.queen_on, r.1.queen_on⟩]))
      (if col = nq then
        let st1 : Queens.State := { sl.1 with solutions := sl.1.solutions + 1 }
        let st2 : Queens.State :=
          { st1 with showFlag := Queens.decChar charSigned st1.showFlag }
        if st1.showFlag > 0 then
          match Queens.capture nq st2.queen_on st2.board with
          | none => none
          | some b => some ({ st2 with board := b }, sl.2)
        else some (st2, sl.2)
      else
        forEach (List.range nq) (fun i s =>
          match Queens.scan s.1.queen_on (i : Int) col col 0 with
          | none => none
          | some j =>
            if j < col then some s
            else
              match Queens.setQueen s.1 col (i : Int) with
              | none => none
              | some s1 => Queens.nqueensT charSigned nq fuel (col + 1) (s1, s.2)) sl)

/-- Function `nqueens (col, thr_index)` of `queens_pth.c` with the log of its calls. -/
def QueensPth.nqueensT (nq nthreads : Nat) :
    Nat → Nat → Nat → QueensPth.State × List Call → Option (QueensPth.State × List Call)
  | 0, _, _, _ => none
  | fuel + 1, col, thr_index, sl =>
    if col = 0 ∧ nthreads = 0 then none
    else
      match (if col = nq then QueensPth.incSolutions sl.1 thr_index else some sl.1) with
      | none => none
      | some st1 =>
        Option.map (fun r => (r.1, r.2 ++ [⟨col, fuel + 1, (sl.1.queen_on[thr_index]?).getD [],
            (r.1.queen_on[thr_index]?).getD []⟩]))
          (forEach (rowsFromTo (QueensPth.start nq nthreads col thr_index)
              (QueensPth.end_ nq nthreads col thr_index))
            (fun i s =>
              match QueensPth.scan s.1.queen_on i col thr_index col 0 with
              | none => none
              | some j =>
                if j < col then some s
                else
                  match QueensPth.setQueen s.1 thr_index col i with
                  | none => none
                  | some s1 => QueensPth.nqueensT nq nthreads fuel (col + 1) thr_index (s1, s.2))
            (st1, sl.2))

/-! ## Lemmas on the helpers -/

theorem forEach_append {α σ : Type} (l1 l2 : List α) (body : α → σ → Option σ) (s : σ) :
    forEach (l1 ++ l2) body s = (forEach l1 body s).bind (forEach l2 body) := by
  induction l1 generalizing s with
  | nil => simp [forEach]
  | cons a l ih =>
    simp only [List.cons_append, forEach]
    cases body a s with
    | none => simp
    | some s1 => simpa using ih s1

theorem forEach_map {α β σ : Type} (f : α → β) (l : List α) (body : β → σ → Option σ) (s : σ) :
    forEach (l.map f) body s = forEach l (fun a => body (f a)) s := by
  induction l generalizing s with
  | nil => simp [forEach]
  | cons a l ih =>
    simp only [List.map_cons, forEach]
    cases body (f a) s with
    | none => rfl
    | some s1 => simpa using ih s1

theorem rowsFromTo_zero (nq : Nat) : rowsFromTo 0 ((nq : Int) - 1) = Search.rows nq := by
  simp [rowsFromTo, Search.rows]

namespace Queens

theorem scan_spec (qo : List Int) (i : Int) (col : Nat) :
    ∀ n j, j + n = col → col ≤ qo.length →
      ∃ j1, scan qo i col n j = some j1 ∧ j1 ≤ col ∧
        (j1 < col ↔ Search.conflictFree ((qo.take col).drop j) n i = false) := by
  intro n
  induction n with
  | zero =>
    intro j hj hlen
    refine ⟨j, rfl, by omega, ?_⟩
    have : (qo.take col).drop j = [] := by
      apply List.drop_eq_nil_of_le
      simp; omega
    simp [this, Search.conflictFree]; omega
  | succ n ih =>
    intro j hj hlen
    have hjl : j < qo.length := by omega
    have hjt : j < (qo.take col).length := by simp; omega
    have hd : (qo.take col).drop j = qo[j] :: (qo.take col).drop (j + 1) := by
      rw [List.drop_eq_getElem_cons hjt]
      simp
    rw [hd]
    simp only [scan, is_safe, List.getElem?_eq_getElem hjl, Search.conflictFree]
    by_cases h1 : qo[j] = i
    · refine ⟨j, by simp [h1, ITS_SAFE], by omega, ?_⟩
      simp [h1]; omega
    · by_cases h2 : ((qo[j] - i).natAbs : Int) = (col : Int) - (j : Int)
      · refine ⟨j, by simp [h1, h2, ITS_SAFE], by omega, ?_⟩
        have : (qo[j] - i).natAbs = n + 1 := by omega
        simp [this]; omega
      · obtain ⟨j1, e1, e2, e3⟩ := ih (j + 1) (by omega) hlen
        have h2a : ¬ |qo[j] - i| = (col : Int) - (j : Int) := by
          rwa [← Int.natCast_natAbs]
        refine ⟨j1, by simp [h1, h2a, NOT_SAFE, e1], e2, ?_⟩
        have : (qo[j] - i).natAbs ≠ n + 1 := by omega
        simp [h1, this, e3]

end Queens

namespace Queens

theorem set_of_getElem? {α : Type} (b : List α) (i : Nat) (row : α) (h : b[i]? = some row) :
    b.set i row = b := by
  apply List.ext_getElem?
  intro k
  by_cases hk : i = k
  · subst hk
    rw [List.getElem?_set, h]
    have : i < b.length := by
      rcases List.getElem?_eq_some.1 h with ⟨hl, _⟩
      exact hl
    simp [this]
  · rw [List.getElem?_set_ne hk]

theorem capture_row (i : Nat) (qi : Int) (b : List (List Char)) (row : List Char)
    (hb : b[i]? = some row) :
    ∀ m, m ≤ row.length →
      ∃ row1, forEach (List.range m) (fun j b1 => setCell b1 i j (cell qi i j)) b
          = some (b.set i row1) ∧ row1.length = row.length ∧
        ∀ k, row1[k]? = if k < m then some (cell qi i k) else row[k]? := by
  have hi : i < b.length := (List.getElem?_eq_some.1 hb).1
  intro m
  induction m with
  | zero =>
    intro _
    exact ⟨row, by simp [forEach, set_of_getElem? b i row hb], rfl, by simp⟩
  | succ m ih =>
    intro hm
    obtain ⟨row1, e1, e2, e3⟩ := ih (by omega)
    refine ⟨row1.set m (cell qi i m), ?_, by simp [e2], ?_⟩
    · rw [List.range_succ, forEach_append, e1]
      have hm1 : m < row1.length := by omega
      simp [forEach, setCell, List.getElem?_set_self hi, hm1, List.set_set]
    · intro k
      rw [List.getElem?_set]
      by_cases hk : m = k
      · subst hk
        have hm1 : m < row1.length := by omega
        simp [hm1]
      · rw [if_neg hk, e3 k]
        by_cases hk2 : k < m
        · have : k < m + 1 := by omega
          simp [hk2, this]
        · have : ¬ k < m + 1 := by omega
          simp [hk2, this]

theorem capture_spec (nq : Nat) (qo : List Int) (b : List (List Char))
    (hq : nq ≤ qo.length) (hb : GoodDims nq b) :
    capture nq qo b = some (render nq qo) := by
  have key : ∀ m, m ≤ nq →
      ∃ b1, forEach (List.range m) (fun i b =>
          forEach (List.range nq) (fun j b1 =>
            match qo[i]? with
            | none => none
            | some qi => setCell b1 i j (cell qi i j)) b) b = some b1 ∧
        b1.length = b.length ∧
        ∀ k, b1[k]? = if k < m then some ((List.range nq).map (fun j => cell (qo.getD k 0) k j))
          else b[k]? := by
    intro m
    induction m with
    | zero => intro _; exact ⟨b, by simp [forEach], rfl, by simp⟩
    | succ m ih =>
      intro hm
      obtain ⟨b1, e1, e2, e3⟩ := ih (by omega)
      have hmq : m < qo.length := by omega
      have hmb : m < b.length := by rw [hb.1]; omega
      have hrow : b1[m]? = some b[m] := by
        rw [e3 m]; simp [hmb]
      have hrl : (b[m]).length = nq := hb.2 _ (List.getElem_mem _)
      obtain ⟨row1, r1, r2, r3⟩ := capture_row m qo[m] b1 b[m] hrow nq (by omega)
      have hrow1 : row1 = (List.range nq).map (fun j => cell (qo.getD m 0) m j) := by
        apply List.ext_getElem?
        intro k
        rw [r3 k, List.getElem?_map]
        by_cases hk : k < nq
        · simp [hk, List.getElem?_range hk, List.getD_eq_getElem?_getD,
            List.getElem?_eq_getElem hmq]
        · have h1 : (List.range nq)[k]? = none := by
            apply List.getElem?_eq_none; simp; omega
          have h2 : (b[m])[k]? = none := by
            apply List.getElem?_eq_none; omega
          simp [hk, h1, h2]
      refine ⟨b1.set m row1, ?_, by simp [e2], ?_⟩
      · rw [List.range_succ, forEach_append, e1]
        simp only [Option.some_bind, forEach, List.getElem?_eq_getElem hmq]
        rw [r1]
      · intro k
        rw [List.getElem?_set]
        by_cases hk : m = k
        · subst hk
          have : m < b1.length := by omega
          simp [this, hrow1]
        · rw [if_neg hk, e3 k]
          by_cases hk2 : k < m
          · have : k < m + 1 := by omega
            simp [hk2, this]
          · have : ¬ k < m + 1 := by omega
            simp [hk2, this]
  obtain ⟨b1, e1, e2, e3⟩ := key nq (le_refl _)
  unfold capture
  rw [e1]
  congr 1
  apply List.ext_getElem?
  intro k
  rw [e3 k]
  unfold render
  rw [List.getElem?_map]
  by_cases hk : k < nq
  · simp [hk, List.getElem?_range hk]
  · have h1 : (List.range nq)[k]? = none := by
      apply List.getElem?_eq_none; simp; omega
    have h2 : b[k]? = none := by
      apply List.getElem?_eq_none; rw [hb.1]; omega
    simp [hk, h1, h2]

end Queens

theorem take_set_ge {α : Type} (l : List α) (c n : Nat) (a : α) (h : c ≤ n) :
    (l.set n a).take c = l.take c := by
  apply List.ext_getElem?
  intro k
  by_cases hk : k < c
  · rw [List.getElem?_take_of_lt hk, List.getElem?_take_of_lt hk, List.getElem?_set_ne (by omega)]
  · rw [List.getElem?_eq_none (by simp; omega), List.getElem?_eq_none (by simp; omega)]

theorem take_succ_set {α : Type} (l : List α) (c : Nat) (a : α) (h : c < l.length) :
    (l.set c a).take (c + 1) = l.take c ++ [a] := by
  rw [List.take_succ, take_set_ge l c c a (le_refl _), List.getElem?_set_self h]
  rfl

theorem take_of_take_succ {α : Type} (l1 l2 : List α) (c : Nat) (a : α)
    (h : l1.take (c + 1) = l2.take c ++ [a]) (hl : c ≤ l2.length) :
    l1.take c = l2.take c := by
  have h1 : (l1.take (c + 1)).take c = l1.take c := by
    rw [List.take_take]; congr 1; omega
  rw [← h1, h]
  exact List.take_left' (by simp; omega)

namespace Queens

theorem render_dims (nq : Nat) (q : List Int) : GoodDims nq (render nq q) := by
  constructor
  · simp [render]
  · intro row hrow
    simp only [render, List.mem_map] at hrow
    obtain ⟨i, _, rfl⟩ := hrow
    simp

theorem complete_dims (sgn : Bool) (nq : Nat) (v : View) (q : List Int)
    (h : GoodDims nq v.board) : GoodDims nq (complete sgn nq v q).board := by
  unfold complete
  by_cases hs : v.showFlag > 0
  · simp only [hs, if_true]; exact render_dims nq q
  · simp only [hs, if_false]; exact h

theorem absorb_dims (sgn : Bool) (nq : Nat) (sols : List (List Int)) :
    ∀ v : View, GoodDims nq v.board → GoodDims nq (absorb sgn nq v sols).board := by
  induction sols with
  | nil => intro v h; exact h
  | cons q l ih =>
    intro v h
    exact ih _ (complete_dims sgn nq v q h)

theorem absorb_append (sgn : Bool) (nq : Nat) (v : View) (l1 l2 : List (List Int)) :
    absorb sgn nq v (l1 ++ l2) = absorb sgn nq (absorb sgn nq v l1) l2 := by
  simp [absorb, List.foldl_append]

/-- Refinement of the sequential search: a call `nqueens (col)` made with `r`
columns left returns, keeps the placed columns `0 .. col - 1`, and changes the rest
of the state as reaching the placements `solsFrom nq r (placed columns)` in order. -/
theorem nqueens_spec (sgn : Bool) (nq : Nat) :
    ∀ r col fuel (st : State), col + r = nq → r < fuel → st.queen_on.length = nq →
      GoodDims nq st.board →
      ∃ st1, nqueens sgn nq fuel col st = some st1 ∧ st1.queen_on.length = nq ∧
        st1.queen_on.take col = st.queen_on.take col ∧
        view st1 = absorb sgn nq (view st) (Search.solsFrom nq r (st.queen_on.take col)) := by
  intro r
  induction r with
  | zero =>
    intro col fuel st hc hf hq hb
    obtain ⟨fuel, rfl⟩ : ∃ f, fuel = f + 1 := ⟨fuel - 1, by omega⟩
    have hcol : col = nq := by omega
    have hcap := capture_spec nq st.queen_on st.board (by omega) hb
    have htake : st.queen_on.take col = st.queen_on := List.take_of_length_le (by omega)
    simp only [nqueens, hcol, if_true, hcap]
    by_cases hs : st.showFlag > 0
    · refine ⟨⟨st.solutions + 1, st.queen_on, render nq st.queen_on,
        decChar sgn st.showFlag⟩, by simp only [hs, if_true], hq, rfl, ?_⟩
      rw [← hcol, htake]
      simp [view, absorb, Search.solsFrom, complete, hs, hcol]
    · refine ⟨⟨st.solutions + 1, st.queen_on, st.board,
        decChar sgn st.showFlag⟩, by simp only [hs, if_false], hq, rfl, ?_⟩
      rw [← hcol, htake]
      simp [view, absorb, Search.solsFrom, complete, hs]
  | succ r ih =>
    intro col fuel st hc hf hq hb
    obtain ⟨fuel, rfl⟩ : ∃ f, fuel = f + 1 := ⟨fuel - 1, by omega⟩
    have hcol : col ≠ nq := by omega
    have loop : ∀ (L : List Int) (s : State), s.queen_on.length = nq → GoodDims nq s.board →
        ∃ s1, forEach L (fun i s =>
            match scan s.queen_on i col col 0 with
            | none => none
            | some j =>
              if j < col then some s
              else
                match setQueen s col i with
                | none => none
                | some s1 => nqueens sgn nq fuel (col + 1) s1) s = some s1 ∧
          s1.queen_on.length = nq ∧ s1.queen_on.take col = s.queen_on.take col ∧
          view s1 = absorb sgn nq (view s) (L.flatMap (fun i =>
            if Search.safeRow (s.queen_on.take col) i
            then Search.solsFrom nq r (s.queen_on.take col ++ [i]) else [])) := by
      intro L
      induction L with
      | nil => intro s h1 _; exact ⟨s, rfl, h1, rfl, rfl⟩
      | cons i L ihL =>
        intro s h1 h2
        obtain ⟨j1, e1, e2, e3⟩ := scan_spec s.queen_on i col col 0 (by omega) (by omega)
        have hlen : (s.queen_on.take col).length = col := by simp; omega
        simp only [List.drop_zero] at e3
        simp only [forEach, e1, List.flatMap_cons]
        by_cases hj : j1 < col
        · have hsafe : Search.safeRow (s.queen_on.take col) i = false := by
            unfold Search.safeRow; rw [hlen]; exact e3.1 hj
          simp only [hj, if_true, hsafe, Bool.false_eq_true, if_false, List.nil_append]
          exact ihL s h1 h2
        · have hsafe : Search.safeRow (s.queen_on.take col) i = true := by
            unfold Search.safeRow; rw [hlen]
            cases hcf : Search.conflictFree (s.queen_on.take col) col i with
            | true => rfl
            | false => exact absurd (e3.2 hcf) hj
          have hlt : col < s.queen_on.length := by omega
          obtain ⟨s2, f1, f2, f3, f4⟩ := ih (col + 1) fuel
            { s with queen_on := s.queen_on.set col i } (by omega) (by omega)
            (by simp [h1]) h2
          simp only [take_succ_set _ _ _ hlt] at f3 f4
          have f5 : s2.queen_on.take col = s.queen_on.take col :=
            take_of_take_succ _ _ _ _ f3 (by omega)
          have hb2 : GoodDims nq s2.board := by
            have : s2.board = (view s2).board := rfl
            rw [this, f4]
            exact absorb_dims sgn nq _ _ h2
          obtain ⟨s3, g1, g2, g3, g4⟩ := ihL s2 f2 hb2
          refine ⟨s3, ?_, g2, g3.trans f5, ?_⟩
          · simp only [hj, if_false, setQueen, hlt, if_true, f1]
            exact g1
          · rw [g4, f4, f5]
            simp only [hsafe, if_true]
            rw [absorb_append]
            rfl
    obtain ⟨s1, l1, l2, l3, l4⟩ :=
      loop ((List.range nq).map (fun k : Nat => (k : Int))) st hq hb
    refine ⟨s1, ?_, l2, l3, ?_⟩
    · simp only [nqueens, hcol, if_false]
      have := forEach_map (fun k : Nat => (k : Int)) (List.range nq) (fun i s =>
            match scan s.queen_on i col col 0 with
            | none => none
            | some j =>
              if j < col then some s
              else
                match setQueen s col i with
                | none => none
                | some s1 => nqueens sgn nq fuel (col + 1) s1) st
      rw [← this]
      exact l1
    · rw [l4, Search.solsFrom, Search.rows]

end Queens

/-! ## The reference enumeration lists exactly the non-attacking placements -/

namespace Search

theorem conflictFree_iff (i : Int) : ∀ (ps : List Int) (d : Nat),
    conflictFree ps d i = true ↔
      ∀ j (h : j < ps.length), ps[j] ≠ i ∧ (ps[j] - i).natAbs ≠ d - j := by
  intro ps
  induction ps with
  | nil => intro d; simp [conflictFree]
  | cons p ps ih =>
    intro d
    simp only [conflictFree, Bool.and_eq_true, bne_iff_ne, ne_eq, ih (d - 1)]
    constructor
    · rintro ⟨⟨h1, h2⟩, h3⟩ j hj
      cases j with
      | zero => exact ⟨h1, by simpa using h2⟩
      | succ j =>
        have := h3 j (by simpa using hj)
        refine ⟨this.1, ?_⟩
        have e : d - (j + 1) = d - 1 - j := by omega
        simp only [List.getElem_cons_succ, e]
        exact this.2
    · intro h
      refine ⟨⟨(h 0 (by simp)).1, by simpa using (h 0 (by simp)).2⟩, ?_⟩
      intro j hj
      have := h (j + 1) (by simpa using hj)
      have e : d - (j + 1) = d - 1 - j := by omega
      simp only [List.getElem_cons_succ, e] at this
      exact this

theorem safeRow_iff (p : List Int) (i : Int) :
    safeRow p i = true ↔
      ∀ j (h : j < p.length), p[j] ≠ i ∧ ((p[j] - i).natAbs : Int) ≠ (p.length : Int) - (j : Int) := by
  unfold safeRow
  rw [conflictFree_iff]
  constructor
  · intro h j hj
    refine ⟨(h j hj).1, ?_⟩
    have := (h j hj).2
    omega
  · intro h j hj
    refine ⟨(h j hj).1, ?_⟩
    have := (h j hj).2
    omega

theorem mem_rows (nq : Nat) (i : Int) : i ∈ rows nq ↔ 0 ≤ i ∧ i < (nq : Int) := by
  simp only [rows, List.mem_map, List.mem_range]
  constructor
  · rintro ⟨k, hk, rfl⟩; omega
  · intro h; exact ⟨i.toNat, by omega, by omega⟩

theorem rows_nodup (nq : Nat) : (rows nq).Nodup := by
  unfold rows
  apply List.Nodup.map _ (List.nodup_range nq)
  intro a b h
  exact Int.ofNat.inj h

/-- Membership in the reference enumeration: `l` extends `p` by `r` columns, and
every added column holds a row of the board that is safe for the columns before. -/
theorem mem_solsFrom (nq : Nat) : ∀ (r : Nat) (p l : List Int),
    l ∈ solsFrom nq r p ↔
      l.length = p.length + r ∧ l.take p.length = p ∧
      ∀ k (hk : k < l.length), p.length ≤ k →
        (0 ≤ l[k] ∧ l[k] < (nq : Int)) ∧ safeRow (l.take k) l[k] = true := by
  intro r
  induction r with
  | zero =>
    intro p l
    simp only [solsFrom, List.mem_singleton, Nat.add_zero]
    constructor
    · rintro rfl
      exact ⟨rfl, List.take_of_length_le (le_refl _), fun k hk h => by omega⟩
    · rintro ⟨h1, h2, _⟩
      rw [← h2]; exact (List.take_of_length_le (by omega)).symm
  | succ r ih =>
    intro p l
    simp only [solsFrom, List.mem_flatMap]
    constructor
    · rintro ⟨i, hi, hl⟩
      by_cases hs : safeRow p i = true
      · simp only [hs, if_true] at hl
        obtain ⟨h1, h2, h3⟩ := (ih (p ++ [i]) l).1 hl
        simp only [List.length_append, List.length_singleton] at h1 h2 h3
        have hpl : p.length < l.length := by omega
        have h4 : l.take p.length = p := by
          have := take_of_take_succ l p p.length i
            (by rw [h2, List.take_of_length_le (le_refl _)]) (le_refl _)
          rw [this, List.take_of_length_le (le_refl _)]
        have h5 : l[p.length] = i := by
          have e1 := @List.take_succ _ l p.length
          rw [h2, h4, List.getElem?_eq_getElem hpl] at e1
          simpa using (List.append_cancel_left e1).symm
        refine ⟨by omega, h4, ?_⟩
        intro k hk hpk
        by_cases hk2 : k = p.length
        · subst hk2
          rw [h4, h5]
          exact ⟨(mem_rows nq i).1 hi, hs⟩
        · exact h3 k hk (by omega)
      · simp [hs] at hl
    · rintro ⟨h1, h2, h3⟩
      have hpl : p.length < l.length := by omega
      obtain ⟨hb, hs⟩ := h3 p.length hpl (le_refl _)
      rw [h2] at hs
      refine ⟨l[p.length], (mem_rows nq _).2 hb, ?_⟩
      simp only [hs, if_true]
      apply (ih _ l).2
      simp only [List.length_append, List.length_singleton]
      refine ⟨by omega, ?_, fun k hk hpk => h3 k hk (by omega)⟩
      rw [List.take_succ, h2, List.getElem?_eq_getElem hpl]
      rfl

theorem solsFrom_nodup (nq : Nat) : ∀ (r : Nat) (p : List Int), (solsFrom nq r p).Nodup := by
  intro r
  induction r with
  | zero => intro p; simp [solsFrom]
  | succ r ih =>
    intro p
    simp only [solsFrom]
    rw [List.nodup_flatMap]
    constructor
    · intro i _
      by_cases hs : safeRow p i = true
      · simp only [hs, if_true]; exact ih _
      · simp [hs]
    · apply List.Nodup.pairwise_of_forall_ne (rows_nodup nq)
      intro a _ b _ hab
      simp only [Function.onFun]
      intro l hla hlb
      by_cases hsa : safeRow p a = true
      · by_cases hsb : safeRow p b = true
        · simp only [hsa, if_true] at hla
          simp only [hsb, if_true] at hlb
          have e1 := ((mem_solsFrom nq r _ l).1 hla).2.1
          have e2 := ((mem_solsFrom nq r _ l).1 hlb).2.1
          simp only [List.length_append, List.length_singleton] at e1 e2
          rw [e1] at e2
          have := List.append_cancel_left e2
          simp at this
          exact hab this
        · simp [hsb] at hlb
      · simp [hsa] at hla

theorem mem_solsFrom_nil (nq : Nat) (l : List Int) :
    l ∈ solsFrom nq nq [] ↔ IsPlacement nq l := by
  rw [mem_solsFrom]
  simp only [List.length_nil, Nat.zero_add, List.take_zero, Nat.zero_le, true_implies,
    true_and, IsPlacement, Valid]
  constructor
  · rintro ⟨h1, h2⟩
    refine ⟨h1, fun k hk => (h2 k hk).1, ?_⟩
    intro a b hb hab
    have := (safeRow_iff _ _).1 (h2 b hb).2 a (by simp; omega)
    simp only [List.getElem_take, List.length_take] at this
    have e : min b l.length = b := by omega
    exact ⟨this.1, by have h4 := this.2; omega⟩
  · rintro ⟨h1, h2, h3⟩
    refine ⟨h1, fun k hk => ⟨h2 k hk, ?_⟩⟩
    rw [safeRow_iff]
    intro j hj
    have hj2 : j < k := by simp at hj; omega
    have := h3 j k hk hj2
    simp only [List.getElem_take, List.length_take]
    have e : min k l.length = k := by omega
    exact ⟨this.1, by have h4 := this.2; omega⟩

end Search

namespace Search

theorem toRows_injective (nq : Nat) : Function.Injective (@toRows nq) := by
  intro q1 q2 h
  have h1 := List.ofFn_injective h
  funext a
  have h2 := congrFun h1 a
  exact Fin.ext (Int.ofNat.inj h2)

theorem toRows_length {nq : Nat} (q : Fin nq → Fin nq) : (toRows q).length = nq := by
  simp [toRows]

theorem toRows_getElem {nq : Nat} (q : Fin nq → Fin nq) (k : Nat) (h : k < (toRows q).length) :
    (toRows q)[k] = (((q ⟨k, by simpa [toRows] using h⟩ : Fin nq) : Nat) : Int) := by
  simp [toRows]

theorem isPlacement_toRows {nq : Nat} (q : Fin nq → Fin nq) :
    IsPlacement nq (toRows q) ↔ NonAttacking q := by
  constructor
  · rintro ⟨_, _, h3⟩ a b hab
    have hb : (b : Nat) < (toRows q).length := by rw [toRows_length]; exact b.2
    have := h3 a b hb hab
    rw [toRows_getElem, toRows_getElem, Int.natCast_natAbs] at this
    rintro (h | h)
    · exact this.1 (by rw [h])
    · exact this.2 h
  · intro h
    refine ⟨toRows_length q, ?_, ?_⟩
    · intro k hk
      rw [toRows_getElem]
      have := (q ⟨k, by simpa [toRows] using hk⟩).2
      omega
    · intro a b hb hab
      have hb1 : b < nq := by simpa [toRows] using hb
      have := h ⟨a, by omega⟩ ⟨b, hb1⟩ hab
      rw [toRows_getElem, toRows_getElem, Int.natCast_natAbs]
      constructor
      · intro e
        apply this
        left
        exact Fin.ext (Int.ofNat.inj e)
      · intro e
        exact this (Or.inr e)

theorem exists_toRows {nq : Nat} (l : List Int) (h : IsPlacement nq l) :
    ∃ q : Fin nq → Fin nq, toRows q = l := by
  obtain ⟨h1, h2, _⟩ := h
  refine ⟨fun a => ⟨(l.getD (a : Nat) 0).toNat, ?_⟩, ?_⟩
  · have ha : (a : Nat) < l.length := by rw [h1]; exact a.2
    have := h2 a ha
    rw [List.getD_eq_getElem _ _ ha]
    omega
  · apply List.ext_getElem
    · rw [toRows_length, h1]
    · intro k hk1 hk2
      rw [toRows_getElem]
      have := h2 k hk2
      simp only [List.getD_eq_getElem _ _ hk2]
      omega

/-- The reference enumeration has as many entries as there are non-attacking
placements `q : Fin nq → Fin nq`. -/
theorem card_nonAttacking (nq : Nat) :
    Fintype.card {q : Fin nq → Fin nq // NonAttacking q} = (solsFrom nq nq []).length := by
  rw [Fintype.card_subtype, ← List.toFinset_card_of_nodup (solsFrom_nodup nq nq []),
    ← Finset.card_image_of_injective _ (toRows_injective nq)]
  congr 1
  ext l
  simp only [Finset.mem_image, Finset.mem_filter, Finset.mem_univ, true_and, List.mem_toFinset,
    mem_solsFrom_nil]
  constructor
  · rintro ⟨q, hq, rfl⟩
    exact (isPlacement_toRows q).2 hq
  · intro h
    obtain ⟨q, rfl⟩ := exists_toRows l h
    exact ⟨q, (isPlacement_toRows q).1 h, rfl⟩

end Search

namespace Search

theorem valid_nil (nq : Nat) : Valid nq [] := by
  constructor
  · intro k h; simp at h
  · intro a b hb; simp at hb

theorem valid_snoc (nq : Nat) (p : List Int) (i : Int) (hv : Valid nq p)
    (hi : 0 ≤ i ∧ i < (nq : Int)) (hs : safeRow p i = true) : Valid nq (p ++ [i]) := by
  obtain ⟨h1, h2⟩ := hv
  rw [safeRow_iff] at hs
  constructor
  · intro k hk
    by_cases hk2 : k < p.length
    · rw [List.getElem_append_left hk2]; exact h1 k hk2
    · have : k = p.length := by simp at hk; omega
      subst this
      simpa using hi
  · intro a b hb hab
    by_cases hb2 : b < p.length
    · rw [List.getElem_append_left hb2, List.getElem_append_left (by omega : a < p.length)]
      exact h2 a b hb2 hab
    · have : b = p.length := by simp at hb; omega
      subst this
      have ha : a < p.length := hab
      rw [List.getElem_append_left ha]
      simpa using hs a ha

theorem valid_nodup (nq : Nat) (p : List Int) (hv : Valid nq p) : p.Nodup := by
  rw [List.nodup_iff_injective_get]
  intro a b hab
  by_contra hne
  rcases Nat.lt_or_gt_of_ne (fun h => hne (Fin.ext h)) with h | h
  · exact (hv.2 a b b.2 h).1 (by simpa using hab)
  · exact (hv.2 b a a.2 h).1 (by simpa using hab.symm)

/-- Pigeonhole: a complete valid placement occupies every row. -/
theorem mem_of_isPlacement (nq : Nat) (p : List Int) (hp : IsPlacement nq p) (i : Int)
    (hi : 0 ≤ i ∧ i < (nq : Int)) : i ∈ p := by
  have hsub : p ⊆ rows nq := by
    intro x hx
    obtain ⟨k, hk, rfl⟩ := List.getElem_of_mem hx
    exact (mem_rows nq _).2 (hp.2.1 k hk)
  have hsp := List.subperm_of_subset (valid_nodup nq p hp.2) hsub
  have hperm := hsp.perm_of_length_le (by simp [rows, hp.1])
  exact hperm.mem_iff.2 ((mem_rows nq i).2 hi)

theorem not_safeRow_of_isPlacement (nq : Nat) (p : List Int) (hp : IsPlacement nq p) (i : Int)
    (hi : 0 ≤ i ∧ i < (nq : Int)) : safeRow p i = false := by
  cases hs : safeRow p i with
  | false => rfl
  | true =>
    exfalso
    obtain ⟨k, hk, e⟩ := List.getElem_of_mem (mem_of_isPlacement nq p hp i hi)
    exact ((safeRow_iff p i).1 hs k hk).1 e

end Search

namespace QueensPth

theorem is_safe_eq (qo : List (List Int)) (row : List Int) (t : Nat) (h : qo[t]? = some row)
    (i : Int) (j col : Nat) : is_safe qo i j col t = Queens.is_safe row i j col := by
  simp only [is_safe, Queens.is_safe, h, ITS_SAFE, NOT_SAFE, Queens.ITS_SAFE, Queens.NOT_SAFE]

theorem scan_eq (qo : List (List Int)) (row : List Int) (t : Nat) (h : qo[t]? = some row)
    (i : Int) (col : Nat) : ∀ n j, scan qo i col t n j = Queens.scan row i col n j := by
  intro n
  induction n with
  | zero => intro j; rfl
  | succ n ih =>
    intro j
    simp only [scan, Queens.scan, is_safe_eq qo row t h, ih]

theorem frame_refl (t : Nat) (st : State) : Frame t st st :=
  ⟨rfl, rfl, fun _ _ => ⟨rfl, rfl⟩⟩

theorem frame_trans (t : Nat) (s1 s2 s3 : State) (h1 : Frame t s1 s2) (h2 : Frame t s2 s3) :
    Frame t s1 s3 :=
  ⟨h2.1.trans h1.1, h2.2.1.trans h1.2.1,
    fun u hu => ⟨(h2.2.2 u hu).1.trans (h1.2.2 u hu).1, (h2.2.2 u hu).2.trans (h1.2.2 u hu).2⟩⟩

theorem mem_rowsFromTo (a b i : Int) : i ∈ rowsFromTo a b ↔ a ≤ i ∧ i ≤ b := by
  simp only [rowsFromTo, List.mem_map, List.mem_range]
  constructor
  · rintro ⟨k, hk, rfl⟩; omega
  · intro h; exact ⟨(i - a).toNat, by omega, by omega⟩

theorem start_nonneg (nq nthreads col t : Nat) : 0 ≤ start nq nthreads col t := by
  unfold start
  split
  · exact le_refl _
  · positivity

theorem end_lt (nq nthreads col t : Nat) (ht : t < nthreads) :
    end_ nq nthreads col t < (nq : Int) := by
  unfold end_
  split
  · omega
  · rename_i h
    have h1 : t + 1 < nthreads := by omega
    have h2 : (t + 1) * (nq / nthreads) ≤ nthreads * (nq / nthreads) :=
      Nat.mul_le_mul_right _ (by omega)
    have h3 : nthreads * (nq / nthreads) ≤ nq := Nat.mul_div_le nq nthreads
    have h4 : (((t + 1) * (nq / nthreads) : Nat) : Int) ≤ (nq : Int) :=
      Int.ofNat_le.2 (h2.trans h3)
    rw [Nat.cast_mul, Nat.cast_add, Nat.cast_one] at h4
    omega

theorem mem_rowsAt (nq nthreads col t : Nat) (ht : t < nthreads) (i : Int)
    (hi : i ∈ rowsAt nq nthreads col t) : 0 ≤ i ∧ i < (nq : Int) := by
  rw [rowsAt, mem_rowsFromTo] at hi
  have h1 := start_nonneg nq nthreads col t
  have h2 := end_lt nq nthreads col t ht
  omega

theorem rowsAt_pos (nq nthreads col t : Nat) (hc : 0 < col) :
    rowsAt nq nthreads col t = Search.rows nq := by
  simp only [rowsAt, start, end_, hc, if_true, true_or]
  exact rowsFromTo_zero nq

end QueensPth

namespace QueensPth

theorem levelSols_rows (nq : Nat) (r : Nat) (p : List Int) :
    levelSols nq (Search.rows nq) r p = Search.solsFrom nq r p := by
  cases r <;> rfl

theorem frame_setQueen (t col : Nat) (i : Int) (st st1 : State)
    (h : setQueen st t col i = some st1) : Frame t st st1 := by
  unfold setQueen at h
  split at h
  · exact absurd h (by simp)
  · split at h
    · simp only [Option.some.injEq] at h
      subst h
      refine ⟨by simp, rfl, fun u hu => ⟨?_, rfl⟩⟩
      simp [List.getElem?_set_ne (Ne.symm hu)]
    · exact absurd h (by simp)

theorem frame_incSolutions (t : Nat) (st st1 : State)
    (h : incSolutions st t = some st1) : Frame t st st1 := by
  unfold incSolutions at h
  split at h
  · exact absurd h (by simp)
  · simp only [Option.some.injEq] at h
    subst h
    refine ⟨rfl, by simp, fun u hu => ⟨rfl, ?_⟩⟩
    simp [List.getElem?_set_ne (Ne.symm hu)]

/-- Refinement of the parallel search: a call `nqueens (col, t)` made with `r`
columns left and a valid placement in columns `0 .. col - 1` of `queen_on[t]`
returns, touches only the slots of worker `t`, keeps the placed columns, and adds to
`solutions[t]` the number of placements below the call. -/
theorem nqueens_pth_spec (nq nthreads t : Nat) (ht : t < nthreads) :
    ∀ r col fuel (st : State) (row : List Int) (v : Int),
      col + r = nq → r < fuel → st.queen_on[t]? = some row → row.length = nq →
      st.solutions[t]? = some v → Search.Valid nq (row.take col) →
      ∃ st1 row1, nqueens nq nthreads fuel col t st = some st1 ∧ Frame t st st1 ∧
        st1.queen_on[t]? = some row1 ∧ row1.length = nq ∧
        row1.take col = row.take col ∧
        st1.solutions[t]? = some (v +
          ((levelSols nq (rowsAt nq nthreads col t) r (row.take col)).length : Int)) := by
  have hnt : nthreads ≠ 0 := by omega
  intro r
  induction r with
  | zero =>
    intro col fuel st row v hc hf hrow hlen hsol hval
    obtain ⟨fuel, rfl⟩ : ∃ f, fuel = f + 1 := ⟨fuel - 1, by omega⟩
    have hcol : col = nq := by omega
    have htake : row.take col = row := List.take_of_length_le (by omega)
    have hpl : Search.IsPlacement nq row := ⟨hlen, by rw [← htake]; exact hval⟩
    have htl : t < st.solutions.length := (List.getElem?_eq_some.1 hsol).1
    have loop : ∀ (L : List Int), (∀ i ∈ L, 0 ≤ i ∧ i < (nq : Int)) → ∀ (s : State),
        s.queen_on[t]? = some row →
        forEach L (fun i s =>
            match scan s.queen_on i col t col 0 with
            | none => none
            | some j =>
              if j < col then some s
              else
                match setQueen s t col i with
                | none => none
                | some s1 => nqueens nq nthreads fuel (col + 1) t s1) s = some s := by
      intro L
      induction L with
      | nil => intro _ s _; rfl
      | cons i L ihL =>
        intro hL s hs
        obtain ⟨j1, e1, e2, e3⟩ := Queens.scan_spec row i col col 0 (by omega) (by omega)
        have hns := Search.not_safeRow_of_isPlacement nq row hpl i (hL i (by simp))
        simp only [List.drop_zero, htake] at e3
        have hj : j1 < col := by
          apply e3.2
          unfold Search.safeRow at hns
          rw [hlen, ← hcol] at hns
          exact hns
        simp only [forEach, scan_eq s.queen_on row t hs, e1, hj, if_true]
        exact ihL (fun x hx => hL x (by simp [hx])) s hs
    have hinc : incSolutions st t = some { st with solutions := st.solutions.set t (v + 1) } := by
      simp [incSolutions, hsol]
    refine ⟨{ st with solutions := st.solutions.set t (v + 1) }, row, ?_,
      frame_incSolutions t _ _ hinc, hrow, hlen, rfl, ?_⟩
    · simp only [nqueens, hnt, and_false, if_false, hcol, if_true, hinc]
      have := loop (rowsFromTo (start nq nthreads nq t) (end_ nq nthreads nq t))
        (fun i hi => mem_rowsAt nq nthreads nq t ht i hi)
        { st with solutions := st.solutions.set t (v + 1) } hrow
      rw [hcol] at this
      exact this
    · simp [levelSols, List.getElem?_set_self htl]
  | succ r ih =>
    intro col fuel st row v hc hf hrow hlen hsol hval
    obtain ⟨fuel, rfl⟩ : ∃ f, fuel = f + 1 := ⟨fuel - 1, by omega⟩
    have hcol : col ≠ nq := by omega
    have loop : ∀ (L : List Int), (∀ i ∈ L, 0 ≤ i ∧ i < (nq : Int)) →
        ∀ (s : State) (row : List Int) (v : Int),
        s.queen_on[t]? = some row → row.length = nq → s.solutions[t]? = some v →
        Search.Valid nq (row.take col) →
        ∃ s1 row1, forEach L (fun i s =>
            match scan s.queen_on i col t col 0 with
            | none => none
            | some j =>
              if j < col then some s
              else
                match setQueen s t col i with
                | none => none
                | some s1 => nqueens nq nthreads fuel (col + 1) t s1) s = some s1 ∧
          Frame t s s1 ∧ s1.queen_on[t]? = some row1 ∧ row1.length = nq ∧
          row1.take col = row.take col ∧
          s1.solutions[t]? = some (v + ((L.flatMap (fun i =>
            if Search.safeRow (row.take col) i
            then Search.solsFrom nq r (row.take col ++ [i]) else [])).length : Int)) := by
      intro L
      induction L with
      | nil =>
        intro _ s row v h1 h2 h3 _
        exact ⟨s, row, rfl, frame_refl t s, h1, h2, rfl, by simpa using h3⟩
      | cons i L ihL =>
        intro hL s row v h1 h2 h3 h4
        obtain ⟨j1, e1, e2, e3⟩ := Queens.scan_spec row i col col 0 (by omega) (by omega)
        have hlen2 : (row.take col).length = col := by simp; omega
        simp only [List.drop_zero] at e3
        simp only [forEach, scan_eq s.queen_on row t h1, e1, List.flatMap_cons]
        by_cases hj : j1 < col
        · have hsafe : Search.safeRow (row.take col) i = false := by
            unfold Search.safeRow; rw [hlen2]; exact e3.1 hj
          simp only [hj, if_true, hsafe, Bool.false_eq_true, if_false, List.nil_append]
          exact ihL (fun x hx => hL x (by simp [hx])) s row v h1 h2 h3 h4
        · have hsafe : Search.safeRow (row.take col) i = true := by
            unfold Search.safeRow; rw [hlen2]
            cases hcf : Search.conflictFree (row.take col) col i with
            | true => rfl
            | false => exact absurd (e3.2 hcf) hj
          have hlt : col < row.length := by omega
          have htq : t < s.queen_on.length := (List.getElem?_eq_some.1 h1).1
          have hset : setQueen s t col i =
              some { s with queen_on := s.queen_on.set t (row.set col i) } := by
            simp [setQueen, h1, hlt]
          have hval2 : Search.Valid nq ((row.set col i).take (col + 1)) := by
            rw [take_succ_set _ _ _ hlt]
            exact Search.valid_snoc nq _ i h4 (hL i (by simp)) hsafe
          obtain ⟨s2, row2, f1, f2, f3, f4, f5, f6⟩ := ih (col + 1) fuel
            { s with queen_on := s.queen_on.set t (row.set col i) } (row.set col i) v
            (by omega) (by omega) (by simp [List.getElem?_set_self htq]) (by simp [h2]) h3 hval2
          rw [take_succ_set _ _ _ hlt] at f5 f6
          rw [rowsAt_pos nq nthreads (col + 1) t (by omega), levelSols_rows] at f6
          have f7 : row2.take col = row.take col :=
            take_of_take_succ _ _ _ _ f5 (by omega)
          obtain ⟨s3, row3, g1, g2, g3, g4, g5, g6⟩ :=
            ihL (fun x hx => hL x (by simp [hx])) s2 row2 _ f3 f4 f6 (by rw [f7]; exact h4)
          refine ⟨s3, row3, ?_, ?_, g3, g4, g5.trans f7, ?_⟩
          · simp only [hj, if_false, hset, f1]
            exact g1
          · exact frame_trans t _ _ _ (frame_trans t _ _ _ (frame_setQueen t col i _ _ hset) f2) g2
          · rw [g6, f7]
            simp only [hsafe, if_true, List.length_append, Nat.cast_add]
            congr 1
            ring
    obtain ⟨s1, row1, l1, l2, l3, l4, l5, l6⟩ := loop (rowsAt nq nthreads col t)
      (fun i hi => mem_rowsAt nq nthreads col t ht i hi) st row v hrow hlen hsol hval
    refine ⟨s1, row1, ?_, l2, l3, l4, l5, ?_⟩
    · simp only [nqueens, hnt, and_false, if_false, hcol]
      exact l1
    · rw [l6]; rfl

end QueensPth

namespace QueensPth

/-- Number of placements counted by worker `t`. -/
theorem start_thread_spec (nq nthreads t fuel : Nat) (ht : t < nthreads) (hf : nq < fuel)
    (st : State) (hwf : WellFormed nq st) (htq : t < nq) :
    ∃ st1, start_thread nq nthreads fuel t st = some st1 ∧ Frame t st st1 ∧
      WellFormed nq st1 ∧
      st1.solutions[t]? =
        some (((levelSols nq (rowsAt nq nthreads 0 t) nq []).length : Nat) : Int) := by
  obtain ⟨w1, w2, w3⟩ := hwf
  have hts : t < st.solutions.length := by omega
  have htr : t < st.queen_on.length := by omega
  have hrow : st.queen_on[t]? = some st.queen_on[t] := List.getElem?_eq_getElem htr
  obtain ⟨st1, row1, e1, e2, e3, e4, _, e6⟩ := nqueens_pth_spec nq nthreads t ht nq 0 fuel
    { st with solutions := st.solutions.set t 0 } st.queen_on[t] 0 (by omega) hf hrow
    (w3 _ (List.getElem_mem _)) (by simp [List.getElem?_set_self hts])
    (by simpa using Search.valid_nil nq)
  have hfr : Frame t st st1 := by
    refine frame_trans t st { st with solutions := st.solutions.set t 0 } st1 ?_ e2
    refine ⟨rfl, by simp, fun u hu => ⟨rfl, ?_⟩⟩
    simp [List.getElem?_set_ne (Ne.symm hu)]
  refine ⟨st1, ?_, hfr, ⟨by rw [hfr.2.1, w1], by rw [hfr.1, w2], ?_⟩, ?_⟩
  · simp only [start_thread, hts, if_true]
    exact e1
  · intro row hmem
    obtain ⟨u, hu, rfl⟩ := List.getElem_of_mem hmem
    by_cases hut : u = t
    · subst hut
      have := List.getElem?_eq_getElem hu
      rw [e3] at this
      rw [← Option.some.inj this]; exact e4
    · have h1 := (hfr.2.2 u hut).1
      have hu2 : u < st.queen_on.length := by rw [← hfr.1]; exact hu
      rw [List.getElem?_eq_getElem hu, List.getElem?_eq_getElem hu2] at h1
      rw [Option.some.inj h1]
      exact w3 _ (List.getElem_mem _)
  · rw [e6]; simp

theorem run_workers_spec (nq nthreads fuel : Nat) (hT : nthreads ≤ nq) (hf : nq < fuel)
    (st : State) (hwf : WellFormed nq st) :
    ∀ k, k ≤ nthreads →
      ∃ st1, forEach (List.range k) (fun i s => start_thread nq nthreads fuel i s) st = some st1 ∧
        WellFormed nq st1 ∧
        ∀ t, t < k → st1.solutions[t]? =
          some (((levelSols nq (rowsAt nq nthreads 0 t) nq []).length : Nat) : Int) := by
  intro k
  induction k with
  | zero => intro _; exact ⟨st, rfl, hwf, fun t ht => by omega⟩
  | succ k ih =>
    intro hk
    obtain ⟨s1, e1, e2, e3⟩ := ih (by omega)
    obtain ⟨s2, f1, f2, f3, f4⟩ :=
      start_thread_spec nq nthreads k fuel (by omega) hf s1 e2 (by omega)
    refine ⟨s2, ?_, f3, ?_⟩
    · rw [List.range_succ, forEach_append, e1]
      simp [forEach, f1]
    · intro t ht
      by_cases htk : t = k
      · subst htk; exact f4
      · rw [(f2.2.2 t htk).2]
        exact e3 t (by omega)

theorem sum_solutions_spec (nthreads : Nat) (st : State) (c : Nat → Int)
    (h : ∀ t, t < nthreads → st.solutions[t]? = some (c t)) :
    sum_solutions nthreads st = some ((List.range nthreads).map c).sum := by
  have key : ∀ k, k ≤ nthreads →
      forEach (List.range k) (fun i (total : Int) =>
        match st.solutions[i]? with
        | none => none
        | some v => some (total + v)) 0 = some ((List.range k).map c).sum := by
    intro k
    induction k with
    | zero => intro _; rfl
    | succ k ih =>
      intro hk
      rw [List.range_succ, forEach_append, ih (by omega)]
      simp [forEach, h k (by omega)]
  exact key nthreads (le_refl _)

theorem rows_add (m n : Nat) :
    Search.rows (m + n) = Search.rows m ++ (List.range n).map (fun k : Nat => (m : Int) + (k : Int)) := by
  simp only [Search.rows, List.range_add, List.map_append, List.map_map]
  congr 1

theorem rowsFromTo_nat (m n : Nat) :
    rowsFromTo (m : Int) ((m : Int) + (n : Int) - 1) =
      (List.range n).map (fun k : Nat => (m : Int) + (k : Int)) := by
  have : ((m : Int) + (n : Int) - 1 + 1 - (m : Int)).toNat = n := by
    have e : ((m : Int) + (n : Int) - 1 + 1 - (m : Int)) = (n : Int) := by ring
    rw [e, Int.toNat_natCast]
  simp only [rowsFromTo, this]

/-- The row ranges of the workers, one after the other, list the rows `0 .. nq - 1`
in increasing order, each once. -/
theorem rowsAt_flatMap (nq nthreads : Nat) (hT : 1 ≤ nthreads) :
    (List.range nthreads).flatMap (fun t => rowsAt nq nthreads 0 t) = Search.rows nq := by
  have hb : (nthreads - 1) * (nq / nthreads) ≤ nq :=
    (Nat.mul_le_mul_right _ (by omega)).trans (Nat.mul_div_le nq nthreads)
  have key : ∀ k, k ≤ nthreads - 1 →
      (List.range k).flatMap (fun t => rowsAt nq nthreads 0 t)
        = Search.rows (k * (nq / nthreads)) := by
    intro k
    induction k with
    | zero => intro _; simp [Search.rows]
    | succ k ih =>
      intro hk
      rw [List.range_succ, List.flatMap_append, ih (by omega), Nat.succ_mul, rows_add]
      congr 1
      have hne : ¬ ((k : Int) = (nthreads : Int) - 1) := by omega
      simp only [List.flatMap_cons, List.flatMap_nil, List.append_nil, rowsAt, start, end_,
        Nat.lt_irrefl, if_false, false_or, hne]
      rw [← rowsFromTo_nat]
      congr 1
      push_cast
      ring
  obtain ⟨T, rfl⟩ : ∃ T, nthreads = T + 1 := ⟨nthreads - 1, by omega⟩
  rw [List.range_succ, List.flatMap_append, key T (by omega)]
  have hsplit : nq = T * (nq / (T + 1)) + (nq - T * (nq / (T + 1))) := by
    simp only [Nat.add_sub_cancel] at hb
    omega
  conv_rhs => rw [hsplit, rows_add]
  congr 1
  simp only [List.flatMap_cons, List.flatMap_nil, List.append_nil, rowsAt, start, end_,
    Nat.lt_irrefl, if_false, false_or]
  have e1 : ((T : Int) = ((T + 1 : Nat) : Int) - 1) := by push_cast; ring
  rw [if_pos e1, ← rowsFromTo_nat]
  simp only [Nat.add_sub_cancel] at hb
  have e2 : ((T * (nq / (T + 1)) : Nat) : Int) = (T : Int) * ((nq / (T + 1) : Nat) : Int) :=
    Nat.cast_mul _ _
  have e3 : ((T * (nq / (T + 1)) : Nat) : Int) + ((nq - T * (nq / (T + 1)) : Nat) : Int) - 1
      = (nq : Int) - 1 := by
    rw [Nat.cast_sub hb]; ring
  rw [e3, e2]

end QueensPth

namespace Queens

theorem absorb_solutions (sgn : Bool) (nq : Nat) (sols : List (List Int)) :
    ∀ v : View, (absorb sgn nq v sols).solutions = v.solutions + (sols.length : Int) := by
  induction sols with
  | nil => intro v; simp [absorb]
  | cons q l ih =>
    intro v
    have := ih (complete sgn nq v q)
    simp only [absorb, List.foldl_cons, List.length_cons, Nat.cast_add, Nat.cast_one] at this ⊢
    rw [this]
    simp only [complete]
    ring

theorem nqueens_count (sgn : Bool) (nq fuel : Nat) (hf : nq < fuel) (st : State)
    (hq : st.queen_on.length = nq) (hb : GoodDims nq st.board) :
    ∃ st1, nqueens sgn nq fuel 0 st = some st1 ∧
      st1.solutions = st.solutions + ((Search.solsFrom nq nq []).length : Int) := by
  obtain ⟨st1, e1, _, _, e4⟩ := nqueens_spec sgn nq nq 0 fuel st (by omega) hf hq hb
  refine ⟨st1, e1, ?_⟩
  have : st1.solutions = (view st1).solutions := rfl
  rw [this, e4, absorb_solutions]
  simp [view]

end Queens

namespace QueensPth

theorem sum_flatMap_length (f : Int → List (List Int)) (g : Nat → List Int) :
    ∀ k, ((List.range k).map (fun t => ((((g t).flatMap f).length : Nat) : Int))).sum
      = (((((List.range k).flatMap g).flatMap f).length : Nat) : Int) := by
  intro k
  induction k with
  | zero => simp
  | succ k ih =>
    rw [List.range_succ, List.map_append, List.sum_append, ih, List.flatMap_append,
      List.flatMap_append, List.length_append]
    simp

theorem main_total_spec (nq nthreads fuel : Nat) (h1 : 1 ≤ nthreads) (h2 : nthreads ≤ nq)
    (hf : nq < fuel) (st : State) (hwf : WellFormed nq st) :
    main_total nq nthreads fuel st = some ((Search.solsFrom nq nq []).length : Int) := by
  obtain ⟨st1, e1, _, e3⟩ := run_workers_spec nq nthreads fuel h2 hf st hwf nthreads (le_refl _)
  have e4 := sum_solutions_spec nthreads st1 _ e3
  simp only [main_total, run_workers, e1, e4]
  congr 1
  obtain ⟨n, rfl⟩ : ∃ n, nq = n + 1 := ⟨nq - 1, by omega⟩
  simp only [levelSols]
  rw [sum_flatMap_length, rowsAt_flatMap (n + 1) nthreads h1]
  rfl

end QueensPth

theorem solsFrom_length_7 : (Search.solsFrom 7 7 []).length = 40 := by
  decide!

theorem solsFrom_length_8 : (Search.solsFrom 8 8 []).length = 92 := by
  decide!

theorem solsFrom_length_known :
    ∀ p ∈ knownCounts, (Search.solsFrom p.1 p.1 []).length = p.2 := by
  intro p hp
  simp only [knownCounts, List.mem_cons, List.mem_singleton, List.not_mem_nil, or_false] at hp
  rcases hp with rfl | rfl | rfl | rfl | rfl | rfl | rfl | rfl
  · decide
  · decide
  · decide
  · decide!
  · decide!
  · decide!
  · exact solsFrom_length_7
  · exact solsFrom_length_8

/-- C1: for every board size, the sequential search `nqueens (0)` started with
`solutions = 0` returns with `solutions` equal to the number of placements
`q : {0..N-1} → {0..N-1}` in which no two columns `a < b` have `q a = q b` or
`|q a - q b| = b - a`. -/
theorem Queens.nqueens_counts_nonattacking (charSigned : Bool) (nq fuel : Nat) (hf : nq < fuel)
    (st : Queens.State) (hq : st.queen_on.length = nq) (hb : Queens.GoodDims nq st.board)
    (h0 : st.solutions = 0) :
    ∃ st1, Queens.nqueens charSigned nq fuel 0 st = some st1 ∧
      st1.solutions =
        ((Fintype.card {q : Fin nq → Fin nq // Search.NonAttacking q} : Nat) : Int) := by
  obtain ⟨st1, e1, e2⟩ := Queens.nqueens_count charSigned nq fuel hf st hq hb
  refine ⟨st1, e1, ?_⟩
  rw [e2, h0, Search.card_nonAttacking]
  simp

/-- C2: for `1 ≤ nthreads ≤ nq`, the total that the parallel `main` computes from
the per-worker counters equals the count that the sequential `nqueens (0)` produces
for the same `nq`, whether or not `nthreads` divides `nq`. -/
theorem QueensPth.main_total_eq_sequential (charSigned : Bool) (nq nthreads fuel : Nat)
    (h1 : 1 ≤ nthreads) (h2 : nthreads ≤ nq) (hf : nq < fuel)
    (pst : QueensPth.State) (hwf : QueensPth.WellFormed nq pst)
    (sst : Queens.State) (hq : sst.queen_on.length = nq) (hb : Queens.GoodDims nq sst.board)
    (h0 : sst.solutions = 0) :
    ∃ sst1, Queens.nqueens charSigned nq fuel 0 sst = some sst1 ∧
      QueensPth.main_total nq nthreads fuel pst = some sst1.solutions := by
  obtain ⟨st1, e1, e2⟩ := Queens.nqueens_count charSigned nq fuel hf sst hq hb
  refine ⟨st1, e1, ?_⟩
  rw [QueensPth.main_total_spec nq nthreads fuel h1 h2 hf pst hwf, e2, h0]
  simp

theorem QueensPth.ranges_cover (nq nthreads : Nat) (h1 : 1 ≤ nthreads) :
    (∀ r : Int, 0 ≤ r → r < (nq : Int) →
      ∃! t, t < nthreads ∧
        QueensPth.start nq nthreads 0 t ≤ r ∧ r ≤ QueensPth.end_ nq nthreads 0 t) ∧
    (∀ t, t < nthreads → ∀ r : Int,
      QueensPth.start nq nthreads 0 t ≤ r → r ≤ QueensPth.end_ nq nthreads 0 t →
        0 ≤ r ∧ r < (nq : Int)) := by
  constructor
  · intro r hr0 hr1
    have hmem : r ∈ Search.rows nq := (Search.mem_rows nq r).2 ⟨hr0, hr1⟩
    rw [← QueensPth.rowsAt_flatMap nq nthreads h1, List.mem_flatMap] at hmem
    obtain ⟨t, ht, hrt⟩ := hmem
    rw [QueensPth.rowsAt, QueensPth.mem_rowsFromTo] at hrt
    refine ⟨t, ⟨List.mem_range.1 ht, hrt⟩, ?_⟩
    have sep : ∀ a b : Nat, a < b → b < nthreads →
        r ≤ QueensPth.end_ nq nthreads 0 a → QueensPth.start nq nthreads 0 b ≤ r → False := by
      intro a b hab hb he hs
      have hne : ¬ ((a : Int) = (nthreads : Int) - 1) := by omega
      simp only [QueensPth.end_, QueensPth.start, Nat.lt_irrefl, if_false, false_or, hne] at he hs
      have hm : (a + 1) * (nq / nthreads) ≤ b * (nq / nthreads) :=
        Nat.mul_le_mul_right _ (by omega)
      have hm2 : (((a + 1) * (nq / nthreads) : Nat) : Int) ≤ ((b * (nq / nthreads) : Nat) : Int) :=
        Int.ofNat_le.2 hm
      rw [Nat.cast_mul, Nat.cast_mul, Nat.cast_add, Nat.cast_one] at hm2
      omega
    rintro u ⟨hu, hu1, hu2⟩
    by_contra hne
    rcases Nat.lt_or_gt_of_ne hne with h | h
    · exact sep u t h (List.mem_range.1 ht) hu2 hrt.1
    · exact sep t u h hu hrt.2 hu1
  · intro t ht r hs he
    have := QueensPth.mem_rowsAt nq nthreads 0 t ht r
      (by rw [QueensPth.rowsAt, QueensPth.mem_rowsFromTo]; exact ⟨hs, he⟩)
    exact this

/-- C3: for `1 ≤ nthreads ≤ nq`, the column-0 row ranges `[start, end]` of the
workers (`start = t * (nq / nthreads)`; `end = (t + 1) * (nq / nthreads) - 1` except
for the last worker, whose `end` is `nq - 1`) are pairwise disjoint and cover exactly
`0 .. nq - 1`: every row belongs to the range of exactly one worker, and every range
lies inside the board. -/
theorem QueensPth.ranges_partition (nq nthreads : Nat) (h1 : 1 ≤ nthreads)
    (_h2 : nthreads ≤ nq) :
    (∀ t, t < nthreads →
      QueensPth.start nq nthreads 0 t = (t : Int) * ((nq / nthreads : Nat) : Int) ∧
      QueensPth.end_ nq nthreads 0 t =
        if t + 1 = nthreads then (nq : Int) - 1
        else ((t : Int) + 1) * ((nq / nthreads : Nat) : Int) - 1) ∧
    (∀ r : Int, 0 ≤ r → r < (nq : Int) →
      ∃! t, t < nthreads ∧
        QueensPth.start nq nthreads 0 t ≤ r ∧ r ≤ QueensPth.end_ nq nthreads 0 t) ∧
    (∀ t, t < nthreads → ∀ r : Int,
      QueensPth.start nq nthreads 0 t ≤ r → r ≤ QueensPth.end_ nq nthreads 0 t →
        0 ≤ r ∧ r < (nq : Int)) := by
  refine ⟨?_, QueensPth.ranges_cover nq nthreads h1⟩
  intro t _
  constructor
  · simp [QueensPth.start]
  · simp only [QueensPth.end_, Nat.lt_irrefl, false_or]
    by_cases h : t + 1 = nthreads
    · have : (t : Int) = (nthreads : Int) - 1 := by omega
      simp [h, this]
    · have : ¬ (t : Int) = (nthreads : Int) - 1 := by omega
      simp [h, this]

/-- C4: the search counts 1, 0, 0, 2, 10, 4, 40, 92 solutions for
`N = 1, 2, 3, 4, 5, 6, 7, 8`: this is the final `solutions` of the sequential
`nqueens (0)` and the `total` of the parallel `main` for every `1 ≤ nthreads ≤ N`. -/
theorem solution_counts_known (p : Nat × Nat) (hp : p ∈ knownCounts) :
    (∀ (charSigned : Bool) (st : Queens.State), st.queen_on.length = p.1 →
      Queens.GoodDims p.1 st.board → st.solutions = 0 →
      ∃ st1, Queens.nqueens charSigned p.1 (p.1 + 1) 0 st = some st1 ∧
        st1.solutions = (p.2 : Int)) ∧
    (∀ (nthreads : Nat) (st : QueensPth.State), 1 ≤ nthreads → nthreads ≤ p.1 →
      QueensPth.WellFormed p.1 st →
      QueensPth.main_total p.1 nthreads (p.1 + 1) st = some (p.2 : Int)) := by
  have hlen := solsFrom_length_known p hp
  constructor
  · intro sgn st hq hb h0
    obtain ⟨st1, e1, e2⟩ := Queens.nqueens_count sgn p.1 (p.1 + 1) (by omega) st hq hb
    exact ⟨st1, e1, by rw [e2, h0, hlen]; simp⟩
  · intro nthreads st h1 h2 hwf
    rw [QueensPth.main_total_spec p.1 nthreads (p.1 + 1) h1 h2 (by omega) st hwf, hlen]

/-- C5 (the code departs from the claim): with the single argument `4` the parallel
`main` keeps `nq = 4` and the default `nthreads = 8`, which is not `≤ nq`; worker 4
then indexes `solutions[4]` outside the 4-entry block. -/
theorem QueensPth.main_params_one_argument_unvalidated :
    QueensPth.main_params [4] = some (4, 8) ∧ ¬ ((8 : Int) ≤ 4) ∧
    ∀ (fuel : Nat) (st : QueensPth.State), st.solutions.length = 4 →
      QueensPth.start_thread 4 8 fuel 4 st = none := by
  refine ⟨by decide, by decide, ?_⟩
  intro fuel st h
  simp [QueensPth.start_thread, h]

/-- C8: with `p = queen_on[j]` the sequential `is_safe (i, j, col)` returns zero
when `i = p` or `|p - i| = col - j` and a non-zero value (one) otherwise; its result
depends on `queen_on[j]` only.  The same holds for the parallel
`is_safe (i, j, col, t)` with `p = queen_on[t][j]`. -/
theorem is_safe_spec (i p : Int) (j col : Nat) :
    (∀ queen_on : List Int, queen_on[j]? = some p →
      Queens.is_safe queen_on i j col =
        some (if i = p ∨ |p - i| = (col : Int) - (j : Int) then 0 else 1)) ∧
    (∀ q1 q2 : List Int, q1[j]? = q2[j]? →
      Queens.is_safe q1 i j col = Queens.is_safe q2 i j col) ∧
    (∀ (queen_on : List (List Int)) (t : Nat) (row : List Int),
      queen_on[t]? = some row → row[j]? = some p →
      QueensPth.is_safe queen_on i j col t =
        some (if i = p ∨ |p - i| = (col : Int) - (j : Int) then 0 else 1)) ∧
    (∀ (q1 q2 : List (List Int)) (t : Nat),
      (q1[t]?).bind (fun row => row[j]?) = (q2[t]?).bind (fun row => row[j]?) →
      QueensPth.is_safe q1 i j col t = QueensPth.is_safe q2 i j col t) := by
  have base : ∀ queen_on : List Int, queen_on[j]? = some p →
      Queens.is_safe queen_on i j col =
        some (if i = p ∨ |p - i| = (col : Int) - (j : Int) then 0 else 1) := by
    intro qo h
    simp only [Queens.is_safe, h, Queens.ITS_SAFE, Queens.NOT_SAFE, Int.natCast_natAbs]
    by_cases h1 : p = i
    · simp [h1]
    · have h1a : ¬ i = p := fun e => h1 e.symm
      by_cases h2 : |p - i| = (col : Int) - (j : Int)
      · simp [h1, h2]
      · simp [h1, h1a, h2]
  refine ⟨base, ?_, ?_, ?_⟩
  · intro q1 q2 h
    simp only [Queens.is_safe, h]
  · intro qo t row h1 h2
    rw [QueensPth.is_safe_eq qo row t h1]
    exact base row h2
  · intro q1 q2 t h
    unfold QueensPth.is_safe
    cases h1 : q1[t]? with
    | none =>
      cases h2 : q2[t]? with
      | none => rfl
      | some r2 =>
        rw [h1, h2] at h
        simp only [Option.none_bind, Option.some_bind] at h
        simp [← h]
    | some r1 =>
      cases h2 : q2[t]? with
      | none =>
        rw [h1, h2] at h
        simp only [Option.none_bind, Option.some_bind] at h
        simp [h]
      | some r2 =>
        rw [h1, h2] at h
        simp only [Option.some_bind] at h
        simp [h]

namespace QueensPth

theorem foldl_append_eq {α β : Type} (f : α → List β) (l : List α) :
    ∀ init : List β, l.foldl (fun acts i => acts ++ f i) init = init ++ l.flatMap f := by
  induction l with
  | nil => intro init; simp
  | cons a l ih => intro init; simp [ih, List.append_assoc]

theorem main_actions_eq (nthreads : Nat) :
    main_actions nthreads = (List.range nthreads).map Action.create ++
      (List.range nthreads).flatMap (fun i => [Action.join i, Action.read i]) := by
  simp only [main_actions, foldl_append_eq, List.nil_append]
  congr 1
  induction (List.range nthreads) with
  | nil => rfl
  | cons a l ih => simp [ih]

theorem joins_getElem (k : Nat) :
    ((List.range k).flatMap (fun i => [Action.join i, Action.read i])).length = 2 * k ∧
    ∀ m, m < 2 * k →
      ((List.range k).flatMap (fun i => [Action.join i, Action.read i]))[m]? =
        some (if m % 2 = 0 then Action.join (m / 2) else Action.read (m / 2)) := by
  induction k with
  | zero => exact ⟨rfl, fun m hm => by omega⟩
  | succ k ih =>
    obtain ⟨h1, h2⟩ := ih
    rw [List.range_succ, List.flatMap_append]
    refine ⟨by simp [h1]; omega, ?_⟩
    intro m hm
    by_cases hmk : m < 2 * k
    · rw [List.getElem?_append_left (by omega)]
      exact h2 m hmk
    · rw [List.getElem?_append_right (by omega), h1]
      rcases (by omega : m = 2 * k ∨ m = 2 * k + 1) with e | e
      · subst e
        have e1 : 2 * k % 2 = 0 := by omega
        have e2 : 2 * k / 2 = k := by omega
        simp [e1, e2]
      · subst e
        have e1 : ¬ (2 * k + 1) % 2 = 0 := by omega
        have e2 : (2 * k + 1) / 2 = k := by omega
        simp [e1, e2]

theorem main_actions_getElem (nthreads m : Nat) :
    (main_actions nthreads)[m]? =
      if m < nthreads then some (Action.create m)
      else if m < 3 * nthreads then
        some (if (m - nthreads) % 2 = 0 then Action.join ((m - nthreads) / 2)
          else Action.read ((m - nthreads) / 2))
      else none := by
  rw [main_actions_eq]
  obtain ⟨h1, h2⟩ := joins_getElem nthreads
  by_cases hm : m < nthreads
  · rw [List.getElem?_append_left (by simpa using hm)]
    simp [hm, List.getElem?_range hm]
  · rw [List.getElem?_append_right (by simpa using hm)]
    simp only [List.length_map, List.length_range, hm, if_false]
    by_cases hm2 : m < 3 * nthreads
    · rw [h2 _ (by omega)]
      simp [hm2]
    · rw [List.getElem?_eq_none (by omega)]
      simp [hm2]

end QueensPth

/-- C9: for `t < nthreads ≤ nq`, running worker `t` (`start_thread`) from any state
of the tables returns, leaves `queen_on[u]` and `solutions[u]` unchanged for every
`u ≠ t`, and ends with the same `solutions[t]` whatever the tables held before. -/
theorem QueensPth.start_thread_frame (nq nthreads t fuel : Nat) (ht : t < nthreads)
    (hT : nthreads ≤ nq) (hf : nq < fuel) (st : QueensPth.State)
    (hwf : QueensPth.WellFormed nq st) :
    ∃ st1, QueensPth.start_thread nq nthreads fuel t st = some st1 ∧
      (∀ u, u ≠ t → st1.queen_on[u]? = st.queen_on[u]? ∧
        st1.solutions[u]? = st.solutions[u]?) ∧
      ∀ st2 : QueensPth.State, QueensPth.WellFormed nq st2 →
        ∃ st3, QueensPth.start_thread nq nthreads fuel t st2 = some st3 ∧
          st3.solutions[t]? = st1.solutions[t]? := by
  obtain ⟨st1, e1, e2, _, e4⟩ :=
    QueensPth.start_thread_spec nq nthreads t fuel ht hf st hwf (by omega)
  refine ⟨st1, e1, e2.2.2, ?_⟩
  intro st2 hwf2
  obtain ⟨st3, f1, _, _, f4⟩ :=
    QueensPth.start_thread_spec nq nthreads t fuel ht hf st2 hwf2 (by omega)
  exact ⟨st3, f1, by rw [f4, e4]⟩

/-- C10 as stated fails: with two workers `main` reads `solutions[0]` (action 3)
before it joins worker 1 (action 4). -/
theorem QueensPth.read_before_last_join :
    ¬ QueensPth.ReadsAfterAllJoins 2 (QueensPth.main_actions 2) := by
  intro h
  obtain ⟨n, hn, e⟩ := h 3 0 (by decide) 1 (by decide)
  have hn3 : n = 0 ∨ n = 1 ∨ n = 2 := by omega
  rcases hn3 with rfl | rfl | rfl
  · revert e; decide
  · revert e; decide
  · revert e; decide

namespace QueensPth

theorem main_actions_read (nthreads m i : Nat)
    (h : (main_actions nthreads)[m]? = some (Action.read i)) :
    m = nthreads + 2 * i + 1 ∧ i < nthreads := by
  rw [main_actions_getElem] at h
  by_cases h1 : m < nthreads
  · simp [h1] at h
  · by_cases h2 : m < 3 * nthreads
    · simp only [h1, h2, if_false, if_true, Option.some.injEq] at h
      by_cases h3 : (m - nthreads) % 2 = 0
      · simp [h3] at h
      · simp only [h3, if_false, Action.read.injEq] at h
        omega
    · simp [h1, h2] at h

theorem main_actions_join (nthreads n j : Nat)
    (h : (main_actions nthreads)[n]? = some (Action.join j)) :
    n = nthreads + 2 * j ∧ j < nthreads := by
  rw [main_actions_getElem] at h
  by_cases h1 : n < nthreads
  · simp [h1] at h
  · by_cases h2 : n < 3 * nthreads
    · simp only [h1, h2, if_false, if_true, Option.some.injEq] at h
      by_cases h3 : (n - nthreads) % 2 = 0
      · simp only [h3, if_true, Action.join.injEq] at h
        omega
      · simp [h3] at h
    · simp [h1, h2] at h

theorem main_actions_at_join (nthreads j : Nat) (hj : j < nthreads) :
    (main_actions nthreads)[nthreads + 2 * j]? = some (Action.join j) := by
  rw [main_actions_getElem]
  have a1 : ¬ nthreads + 2 * j < nthreads := by omega
  have a2 : nthreads + 2 * j < 3 * nthreads := by omega
  have a3 : (nthreads + 2 * j - nthreads) % 2 = 0 := by omega
  have a4 : (nthreads + 2 * j - nthreads) / 2 = j := by omega
  simp [a1, a2, a3, a4]

theorem main_actions_at_read (nthreads i : Nat) (hi : i < nthreads) :
    (main_actions nthreads)[nthreads + 2 * i + 1]? = some (Action.read i) := by
  rw [main_actions_getElem]
  have a1 : ¬ nthreads + 2 * i + 1 < nthreads := by omega
  have a2 : nthreads + 2 * i + 1 < 3 * nthreads := by omega
  have a3 : ¬ (nthreads + 2 * i + 1 - nthreads) % 2 = 0 := by omega
  have a4 : (nthreads + 2 * i + 1 - nthreads) / 2 = i := by omega
  simp [a1, a2, a3, a4]

/-- A sequence that joins all workers before it reads any slot does not have the
join-then-read ordering: the ordering tells the two designs apart. -/
theorem joins_first_not_ordered :
    ¬ ReadsAfterOwnJoin 2
      [Action.create 0, Action.create 1, Action.join 0, Action.join 1,
        Action.read 0, Action.read 1] := by
  intro h
  have := ((h.2 4 0 (by decide)).2.2.2.2 3 1 (by decide)).1 (by decide)
  omega

end QueensPth

/-- C10 (amended): in the sequence of actions of the parallel `main`, every result
slot `solutions[i]`, `i < nthreads`, is read into `total`; every such read comes after
the creation of all workers and after the join of worker `i` and of every worker of
smaller index, and it comes before the join of every worker of larger index. -/
theorem QueensPth.read_after_own_join (nthreads : Nat) :
    QueensPth.ReadsAfterOwnJoin nthreads (QueensPth.main_actions nthreads) := by
  refine ⟨fun i hi => ⟨_, QueensPth.main_actions_at_read nthreads i hi⟩, ?_⟩
  intro m i hm
  obtain ⟨hm1, hi⟩ := QueensPth.main_actions_read nthreads m i hm
  refine ⟨hi, ?_, ?_, ?_, ?_⟩
  · intro j hj
    refine ⟨j, by omega, ?_⟩
    rw [QueensPth.main_actions_getElem]
    simp [hj]
  · intro j hj
    exact ⟨nthreads + 2 * j, by omega, QueensPth.main_actions_at_join nthreads j (by omega)⟩
  · intro j hij hj
    exact ⟨nthreads + 2 * j, by omega, QueensPth.main_actions_at_join nthreads j hj⟩
  · intro n j hn
    obtain ⟨hn1, _⟩ := QueensPth.main_actions_join nthreads n j hn
    omega

namespace Queens

theorem cell_eq_Q (qi : Int) (i j : Nat) : cell qi i j = 'Q' ↔ (j : Int) = qi := by
  unfold cell
  by_cases h : (j : Int) = qi
  · simp [h]
  · simp only [h, if_false, iff_false]
    split <;> decide

theorem isQueen_render (nq : Nat) (q : List Int) (i j : Nat) :
    isQueen (render nq q) i j ↔ i < nq ∧ j < nq ∧ (j : Int) = q.getD i 0 := by
  unfold isQueen render
  by_cases hi : i < nq
  · by_cases hj : j < nq
    · simp [List.getElem?_map, List.getElem?_range hi, List.getElem?_range hj, hi, hj,
        cell_eq_Q]
    · have : (List.range nq)[j]? = none := List.getElem?_eq_none (by simp; omega)
      simp [List.getElem?_map, List.getElem?_range hi, this, hj]
  · have : (List.range nq)[i]? = none := List.getElem?_eq_none (by simp; omega)
    simp [List.getElem?_map, this, hi]

theorem queenGrid_render (nq : Nat) (q : List Int) (hq : Search.IsPlacement nq q) :
    QueenGrid nq (render nq q) := by
  obtain ⟨hlen, hb, hv⟩ := hq
  have hget : ∀ i (h : i < q.length), q.getD i 0 = q[i] :=
    fun i h => List.getD_eq_getElem _ _ h
  refine ⟨?_, ?_, ?_⟩
  · intro i hi
    have hil : i < q.length := by omega
    have hbi := hb i hil
    refine ⟨(q[i]).toNat, ⟨by omega, (isQueen_render nq q i _).2
      ⟨hi, by omega, by rw [hget i hil]; omega⟩⟩, ?_⟩
    rintro j ⟨_, hj⟩
    have := ((isQueen_render nq q i j).1 hj).2.2
    rw [hget i hil] at this
    omega
  · intro j hj
    obtain ⟨i, hi, e⟩ := List.getElem_of_mem
      (Search.mem_of_isPlacement nq q ⟨hlen, hb, hv⟩ (j : Int) ⟨by omega, by omega⟩)
    have hi2 : i < nq := by omega
    refine ⟨i, ⟨hi2, (isQueen_render nq q i j).2 ⟨hi2, hj, by rw [hget i hi, e]⟩⟩, ?_⟩
    rintro i1 ⟨hi1, hq1⟩
    have hi1l : i1 < q.length := by omega
    have e1 := ((isQueen_render nq q i1 j).1 hq1).2.2
    rw [hget i1 hi1l] at e1
    by_contra hne
    rcases Nat.lt_or_gt_of_ne hne with h | h
    · exact (hv i1 i hi h).1 (by rw [← e1, e])
    · exact (hv i i1 hi1l h).1 (by rw [← e1, e])
  · intro i1 j1 i2 j2 hi1 _ hi2 _ hq1 hq2 hne
    have hi1l : i1 < q.length := by omega
    have hi2l : i2 < q.length := by omega
    have e1 := ((isQueen_render nq q i1 j1).1 hq1).2.2
    have e2 := ((isQueen_render nq q i2 j2).1 hq2).2.2
    rw [hget i1 hi1l] at e1
    rw [hget i2 hi2l] at e2
    rcases Nat.lt_trichotomy i1 i2 with h | h | h
    · have := (hv i1 i2 hi2l h).2
      rw [← e1, ← e2, Int.natCast_natAbs] at this
      intro habs
      apply this
      rw [← habs, abs_sub_comm, abs_of_nonneg (by omega)]
    · subst h
      exfalso; apply hne
      have : (j1 : Int) = (j2 : Int) := by rw [e1, e2]
      have : j1 = j2 := by omega
      rw [this]
    · have := (hv i2 i1 hi1l h).2
      rw [← e1, ← e2, Int.natCast_natAbs] at this
      intro habs
      apply this
      rw [abs_sub_comm (j2 : Int) (j1 : Int), ← habs, abs_of_nonneg (by omega)]

theorem absorb_board (sgn : Bool) (nq : Nat) (sols : List (List Int))
    (hs : ∀ q ∈ sols, Search.IsPlacement nq q) :
    ∀ v : View,
      ((absorb sgn nq v sols).board = v.board ∨ QueenGrid nq (absorb sgn nq v sols).board) ∧
      (0 < v.showFlag → sols ≠ [] → QueenGrid nq (absorb sgn nq v sols).board) ∧
      (QueenGrid nq v.board → QueenGrid nq (absorb sgn nq v sols).board) := by
  induction sols with
  | nil =>
    intro v
    exact ⟨Or.inl rfl, fun _ h => absurd rfl h, fun h => h⟩
  | cons q l ih =>
    intro v
    obtain ⟨i1, _, i3⟩ := ih (fun x hx => hs x (by simp [hx])) (complete sgn nq v q)
    have hq := queenGrid_render nq q (hs q (by simp))
    have e : absorb sgn nq v (q :: l) = absorb sgn nq (complete sgn nq v q) l := rfl
    rw [e]
    by_cases hpos : v.showFlag > 0
    · have hb : (complete sgn nq v q).board = render nq q := by simp [complete, hpos]
      have hg : QueenGrid nq (absorb sgn nq (complete sgn nq v q) l).board :=
        i3 (by rw [hb]; exact hq)
      exact ⟨Or.inr hg, fun _ _ => hg, fun _ => hg⟩
    · have hb : (complete sgn nq v q).board = v.board := by simp [complete, hpos]
      refine ⟨?_, fun h => absurd h hpos, fun h => i3 (by rw [hb]; exact h)⟩
      rcases i1 with h | h
      · exact Or.inl (h.trans hb)
      · exact Or.inr h

end Queens

/-- C7: after the sequential search, the board either was never written (it is as
before the search) or holds a captured grid with exactly one `'Q'` in every row and
in every column and no two `'Q'` cells on a common diagonal; the latter is the case
whenever `show` was positive at the start and a solution was counted. -/
theorem Queens.captured_board_is_queen_grid (charSigned : Bool) (nq fuel : Nat)
    (hf : nq < fuel) (st : Queens.State) (hq : st.queen_on.length = nq)
    (hb : Queens.GoodDims nq st.board) :
    ∃ st1, Queens.nqueens charSigned nq fuel 0 st = some st1 ∧
      (st1.board = st.board ∨ Queens.QueenGrid nq st1.board) ∧
      (0 < st.showFlag → st1.solutions ≠ st.solutions → Queens.QueenGrid nq st1.board) := by
  obtain ⟨st1, e1, _, _, e4⟩ := Queens.nqueens_spec charSigned nq nq 0 fuel st (by omega) hf hq hb
  have hs : ∀ q ∈ Search.solsFrom nq nq [], Search.IsPlacement nq q :=
    fun q h => (Search.mem_solsFrom_nil nq q).1 h
  simp only [List.take_zero] at e4
  obtain ⟨a1, a2, _⟩ := Queens.absorb_board charSigned nq _ hs (Queens.view st)
  have hbd : st1.board = (Queens.view st1).board := rfl
  have hsl : st1.solutions = (Queens.view st1).solutions := rfl
  refine ⟨st1, e1, ?_, ?_⟩
  · rw [hbd, e4]; exact a1
  intro hpos hne
  rw [hbd, e4]
  rw [hsl, e4] at hne
  apply a2 hpos
  intro hnil
  apply hne
  rw [hnil]
  rfl

theorem Queens.init_dims (nq : Nat) : Queens.GoodDims nq (Queens.init nq).board := by
  constructor
  · simp [Queens.init]
  · intro row h
    simp only [Queens.init, List.mem_replicate] at h
    rw [h.2]; simp

theorem QueensPth.init_wellFormed (nq : Nat) : QueensPth.WellFormed nq (QueensPth.init nq) := by
  refine ⟨by simp [QueensPth.init], by simp [QueensPth.init], ?_⟩
  intro row h
  simp only [QueensPth.init, List.mem_replicate] at h
  rw [h.2]; simp

theorem Queens.absorb_board_indep (sgn : Bool) (nq : Nat) (v : Queens.View)
    (b : List (List Char)) (hpos : 0 < v.showFlag) (sols : List (List Int)) (hne : sols ≠ []) :
    Queens.absorb sgn nq v sols = Queens.absorb sgn nq ⟨v.solutions, v.showFlag, b⟩ sols := by
  cases sols with
  | nil => exact absurd rfl hne
  | cons q l => simp [Queens.absorb, Queens.complete, hpos]


namespace Search

theorem mem_solsFrom_of_check (nq : Nat) : ∀ (rest p : List Int),
    checkFrom nq p rest = true → p ++ rest ∈ solsFrom nq rest.length p := by
  intro rest
  induction rest with
  | nil => intro p _; simp [solsFrom]
  | cons x xs ih =>
    intro p h
    simp only [checkFrom, Bool.and_eq_true, decide_eq_true_eq] at h
    obtain ⟨⟨⟨h0, h1⟩, h2⟩, h3⟩ := h
    simp only [List.length_cons, solsFrom, List.mem_flatMap]
    refine ⟨x, (mem_rows nq x).2 ⟨h0, h1⟩, ?_⟩
    simp only [h2, if_true]
    have := ih (p ++ [x]) h3
    simpa using this

theorem nineSolutions_checked :
    nineSolutions.length = 131 ∧
    ∀ q ∈ nineSolutions, q.length = 9 ∧ checkFrom 9 [] q = true := by
  decide!

theorem pairwise_of_increasing : ∀ l : List Nat,
    increasing l = true → l.Pairwise (fun a b => a < b) := by
  intro l h
  rw [← List.chain'_iff_pairwise]
  induction l with
  | nil => exact List.chain'_nil
  | cons a l ih =>
    cases l with
    | nil => exact List.chain'_singleton a
    | cons b rest =>
      simp only [increasing, Bool.and_eq_true, decide_eq_true_eq] at h
      exact List.Chain'.cons h.1 (ih h.2)

set_option maxRecDepth 100000 in
theorem nineSolutions_keys : increasing (nineSolutions.map key) = true := by
  decide!

theorem nineSolutions_nodup : nineSolutions.Nodup :=
  List.Nodup.of_map key
    ((pairwise_of_increasing _ nineSolutions_keys).imp (fun hab => Nat.ne_of_lt hab))

theorem solsFrom_nine_length : 131 ≤ (solsFrom 9 9 []).length := by
  have hsub : nineSolutions ⊆ solsFrom 9 9 [] := by
    intro q hq
    obtain ⟨h1, h2⟩ := nineSolutions_checked.2 q hq
    have := mem_solsFrom_of_check 9 q [] h2
    rw [h1] at this
    simpa using this
  have := (List.subperm_of_subset nineSolutions_nodup hsub).length_le
  rw [nineSolutions_checked.1] at this
  exact this

end Search

namespace Queens

theorem absorb_showFlag (sgn : Bool) (nq : Nat) (sols : List (List Int)) :
    ∀ v : View, (absorb sgn nq v sols).showFlag = (decChar sgn)^[sols.length] v.showFlag := by
  induction sols with
  | nil => intro v; rfl
  | cons q l ih =>
    intro v
    have e : absorb sgn nq v (q :: l) = absorb sgn nq (complete sgn nq v q) l := rfl
    rw [e, ih, List.length_cons, Function.iterate_succ_apply]
    rfl

theorem absorb_board_mem (sgn : Bool) (nq : Nat) (sols : List (List Int)) :
    ∀ v : View,
      ((absorb sgn nq v sols).board = v.board ∨
        ∃ q ∈ sols, (absorb sgn nq v sols).board = render nq q) ∧
      (0 < v.showFlag → sols ≠ [] → ∃ q ∈ sols, (absorb sgn nq v sols).board = render nq q) := by
  induction sols with
  | nil =>
    intro v
    exact ⟨Or.inl rfl, fun _ h => absurd rfl h⟩
  | cons q l ih =>
    intro v
    obtain ⟨i1, _⟩ := ih (complete sgn nq v q)
    have e : absorb sgn nq v (q :: l) = absorb sgn nq (complete sgn nq v q) l := rfl
    rw [e]
    by_cases hpos : v.showFlag > 0
    · have hb : (complete sgn nq v q).board = render nq q := by simp [complete, hpos]
      have hg : ∃ x ∈ q :: l, (absorb sgn nq (complete sgn nq v q) l).board = render nq x := by
        rcases i1 with h | ⟨x, hx, h⟩
        · exact ⟨q, by simp, h.trans hb⟩
        · exact ⟨x, by simp [hx], h⟩
      exact ⟨Or.inr hg, fun _ _ => hg⟩
    · have hb : (complete sgn nq v q).board = v.board := by simp [complete, hpos]
      refine ⟨?_, fun h => absurd h hpos⟩
      rcases i1 with h | ⟨x, hx, h⟩
      · exact Or.inl (h.trans hb)
      · exact Or.inr ⟨x, by simp [hx], h⟩

set_option maxRecDepth 100000 in
theorem decChar_signed_iterate : (decChar true)^[130] 1 = 127 := by
  decide!

/-- With a signed 8-bit `show` that starts at one, the board after at least 131
completions holds the rendering of the 131st placement or of a later one. -/
theorem absorb_signed_recapture (nq : Nat) (sols : List (List Int)) (v : View)
    (hv : v.showFlag = 1) (hlen : 131 ≤ sols.length) :
    ∃ q ∈ sols.drop 130, (absorb true nq v sols).board = render nq q := by
  have hsplit : sols = sols.take 130 ++ sols.drop 130 := (List.take_append_drop 130 sols).symm
  have hshow : (absorb true nq v (sols.take 130)).showFlag = 127 := by
    rw [absorb_showFlag, hv, List.length_take, Nat.min_eq_left (by omega)]
    exact decChar_signed_iterate
  have hne : sols.drop 130 ≠ [] := by
    intro h
    have := congrArg List.length h
    simp at this
    omega
  have := (absorb_board_mem true nq (sols.drop 130) (absorb true nq v (sols.take 130))).2
    (by rw [hshow]; decide) hne
  rw [← absorb_append, ← hsplit] at this
  exact this

theorem render_injective (nq : Nat) (q1 q2 : List Int) (h1 : Search.IsPlacement nq q1)
    (h2 : Search.IsPlacement nq q2) (h : render nq q1 = render nq q2) : q1 = q2 := by
  apply List.ext_getElem (by rw [h1.1, h2.1])
  intro i hi1 hi2
  have hi : i < nq := by rw [← h1.1]; exact hi1
  have hb := h1.2.1 i hi1
  have hq : isQueen (render nq q1) i (q1[i]).toNat :=
    (isQueen_render nq q1 i _).2
      ⟨hi, by omega, by rw [List.getD_eq_getElem _ _ hi1]; omega⟩
  rw [h] at hq
  have := ((isQueen_render nq q2 i _).1 hq).2.2
  rw [List.getD_eq_getElem _ _ hi2] at this
  omega

end Queens

set_option maxRecDepth 100000 in
theorem Queens.absorb_five_unsigned :
    Search.solsFrom 5 5 [] ≠ [] ∧
    (Search.solsFrom 5 5 []).head? = some [0, 2, 4, 1, 3] ∧
    (Queens.absorb false 5 ⟨0, 1, []⟩ (Search.solsFrom 5 5 [])).solutions = 10 ∧
    (Queens.absorb false 5 ⟨0, 1, []⟩ (Search.solsFrom 5 5 [])).board
      = Queens.render 5 [4, 2, 0, 3, 1] ∧
    Queens.render 5 [4, 2, 0, 3, 1] ≠ Queens.render 5 [0, 2, 4, 1, 3] := by
  decide!

set_option maxRecDepth 100000 in
theorem Search.solsFrom_nine_head :
    (Search.solsFrom 9 9 []).head? = some [0, 2, 5, 7, 1, 3, 8, 6, 4] := by
  decide!

/-- C6 (the code departs from the claim): for `N = 9` with an 8-bit signed `char`,
`show` wraps from -128 to 127 at the 131st completion and the capture branch is taken
again, so after `nqueens (0)` the board holds a placement `q` other than the first
one found, `[0, 2, 5, 7, 1, 3, 8, 6, 4]`; with an unsigned `char` the same happens
already for `N = 5` (ten solutions), where the board ends up holding the last
placement found. -/
theorem Queens.board_recaptured_after_wrap :
    (∀ st : Queens.State, st.queen_on.length = 9 → Queens.GoodDims 9 st.board →
      st.solutions = 0 → st.showFlag = 1 →
      ∃ st1 q, Queens.nqueens true 9 10 0 st = some st1 ∧
        (Search.solsFrom 9 9 []).head? = some [0, 2, 5, 7, 1, 3, 8, 6, 4] ∧
        q ∈ Search.solsFrom 9 9 [] ∧ q ≠ [0, 2, 5, 7, 1, 3, 8, 6, 4] ∧
        st1.board = Queens.render 9 q ∧
        st1.board ≠ Queens.render 9 [0, 2, 5, 7, 1, 3, 8, 6, 4]) ∧
    (∀ st : Queens.State, st.queen_on.length = 5 → Queens.GoodDims 5 st.board →
      st.solutions = 0 → st.showFlag = 1 →
      ∃ st1, Queens.nqueens false 5 6 0 st = some st1 ∧
        (Search.solsFrom 5 5 []).head? = some [0, 2, 4, 1, 3] ∧
        st1.solutions = 10 ∧
        st1.board = Queens.render 5 [4, 2, 0, 3, 1] ∧
        st1.board ≠ Queens.render 5 [0, 2, 4, 1, 3]) := by
  constructor
  · intro st hq hb h0 hs
    obtain ⟨st1, e1, _, _, e4⟩ := Queens.nqueens_spec true 9 9 0 10 st (by omega) (by omega) hq hb
    simp only [List.take_zero] at e4
    have hbd : st1.board = (Queens.view st1).board := rfl
    obtain ⟨q, hqd, hq2⟩ := Queens.absorb_signed_recapture 9 (Search.solsFrom 9 9 [])
      (Queens.view st) hs Search.solsFrom_nine_length
    have hhead := Search.solsFrom_nine_head
    have hnd := Search.solsFrom_nodup 9 9 []
    have hqm : q ∈ Search.solsFrom 9 9 [] := List.mem_of_mem_drop hqd
    have hne : q ≠ [0, 2, 5, 7, 1, 3, 8, 6, 4] := by
      intro heq
      rw [← List.take_append_drop 130 (Search.solsFrom 9 9 [])] at hnd hhead
      have hdis := (List.nodup_append.1 hnd).2.2
      apply hdis _ hqd
      cases htk : List.take 130 (Search.solsFrom 9 9 []) with
      | nil =>
        have hl := Search.solsFrom_nine_length
        have h130 : (List.take 130 (Search.solsFrom 9 9 [])).length = 130 := by
          rw [List.length_take]; omega
        rw [htk] at h130
        simp at h130
      | cons a l =>
        rw [htk] at hhead
        simp only [List.cons_append, List.head?_cons, Option.some.injEq] at hhead
        rw [heq, ← hhead]
        simp
    have hfirst : [0, 2, 5, 7, 1, 3, 8, 6, 4] ∈ Search.solsFrom 9 9 [] :=
      List.mem_of_mem_head? hhead
    refine ⟨st1, q, e1, hhead, hqm, hne, by rw [hbd, e4]; exact hq2, ?_⟩
    rw [hbd, e4, hq2]
    intro hr
    exact hne (Queens.render_injective 9 _ _ ((Search.mem_solsFrom_nil 9 q).1 hqm)
      ((Search.mem_solsFrom_nil 9 _).1 hfirst) hr)
  · intro st hq hb h0 hs
    obtain ⟨st1, e1, _, _, e4⟩ := Queens.nqueens_spec false 5 5 0 6 st (by omega) (by omega) hq hb
    obtain ⟨d1, d2, d3, d4, d5⟩ := Queens.absorb_five_unsigned
    simp only [List.take_zero] at e4
    have hv : Queens.view st = ⟨0, 1, st.board⟩ := by simp [Queens.view, h0, hs]
    rw [hv, Queens.absorb_board_indep false 5 ⟨0, 1, st.board⟩ [] Int.one_pos _ d1] at e4
    have hbd : st1.board = (Queens.view st1).board := rfl
    have hsl : st1.solutions = (Queens.view st1).solutions := rfl
    refine ⟨st1, e1, d2, by rw [hsl, e4]; exact d3, by rw [hbd, e4]; exact d4, ?_⟩
    rw [hbd, e4, d4]; exact d5

/-- C11 (the code departs from its doc comment): `is_safe` returns `ITS_SAFE` when the
queen placed in column `j` attacks the candidate (same row, or on a common diagonal)
and `NOT_SAFE` when it does not, the reverse of what the doc comment states. -/
theorem is_safe_names_inverted :
    Queens.is_safe [0] 0 0 1 = some Queens.ITS_SAFE ∧
    Queens.is_safe [0] 1 0 1 = some Queens.ITS_SAFE ∧
    Queens.is_safe [0] 2 0 1 = some Queens.NOT_SAFE ∧
    QueensPth.is_safe [[0]] 0 0 1 0 = some QueensPth.ITS_SAFE ∧
    QueensPth.is_safe [[0]] 1 0 1 0 = some QueensPth.ITS_SAFE ∧
    QueensPth.is_safe [[0]] 2 0 1 0 = some QueensPth.NOT_SAFE := by
  decide

/-- C12: invalid parameter values fall back to the defaults without exit: the
parallel program with two arguments `(n, t)` runs with `(8, 8)` when `n < 1`, `t < 1`
or `t > n` and with `(n, t)` otherwise; the sequential program with one argument `n`
runs with `8` when `n < 1` and with `n` otherwise. -/
theorem main_params_fallback :
    (∀ n t : Int, QueensPth.main_params [n, t] =
      some (if n < 1 ∨ t < 1 ∨ t > n then (8, 8) else (n, t))) ∧
    (∀ n : Int, Queens.main_params [n] = some (if n < 1 then 8 else n)) ∧
    Queens.main_params [0] = some 8 ∧
    QueensPth.main_params [0] = some (8, 8) ∧
    QueensPth.main_params [0, 4] = some (8, 8) := by
  refine ⟨?_, ?_, by decide, by decide, by decide⟩
  · intro n t
    simp only [QueensPth.main_params, QueensPth.NUM_QUEENS, QueensPth.NUM_THREAD]
    split <;> rfl
  · intro n
    simp only [Queens.main_params, Queens.NUM_QUEENS]
    split <;> rfl

namespace Queens

theorem joinAll_append (l1 l2 : List String) : joinAll (l1 ++ l2) = joinAll l1 ++ joinAll l2 := by
  induction l1 with
  | nil => simp [joinAll]
  | cons a l ih =>
    simp only [joinAll, List.cons_append, List.foldr_cons] at ih ⊢
    rw [ih, String.append_assoc]

theorem joinAll_singleton (s : String) : joinAll [s] = s := by
  simp [joinAll]

theorem pboard_line (board : List (List Char)) (i : Nat) (row : List Char)
    (hrow : board[i]? = some row) (out : String) :
    ∀ m, m ≤ row.length →
      forEach (List.range m) (fun j out1 =>
        match board[i]? with
        | none => none
        | some row =>
          match row[j]? with
          | none => none
          | some c => some (out1 ++ cellText c)) out
        = some (out ++ joinAll ((row.take m).map cellText)) := by
  intro m
  induction m with
  | zero => intro _; simp [forEach, joinAll]
  | succ m ih =>
    intro hm
    have hm1 : m < row.length := by omega
    rw [List.range_succ, forEach_append, ih (by omega)]
    simp only [Option.some_bind, forEach, hrow, List.getElem?_eq_getElem hm1]
    rw [List.take_succ, List.getElem?_eq_getElem hm1]
    simp only [Option.toList, List.map_append, List.map_cons, List.map_nil, joinAll_append,
      joinAll_singleton, String.append_assoc]

theorem pboard_spec (nq : Nat) (board : List (List Char)) (hb : GoodDims nq board) :
    pboard nq board = some (gridText (board.map (fun row => row.map cellText))) := by
  have key : ∀ m, m ≤ nq →
      forEach (List.range m) (fun i out =>
        match forEach (List.range nq) (fun j out1 =>
            match board[i]? with
            | none => none
            | some row =>
              match row[j]? with
              | none => none
              | some c => some (out1 ++ cellText c)) out with
        | none => none
        | some out2 => some (out2 ++ "\n")) ""
        = some (gridText ((board.take m).map (fun row => row.map cellText))) := by
    intro m
    induction m with
    | zero => intro _; simp [forEach, gridText, joinAll]
    | succ m ih =>
      intro hm
      have hm1 : m < board.length := by rw [hb.1]; omega
      have hrl : (board[m]).length = nq := hb.2 _ (List.getElem_mem _)
      rw [List.range_succ, forEach_append, ih (by omega)]
      simp only [Option.some_bind, forEach]
      have e : List.take nq board[m] = board[m] := List.take_of_length_le (by omega)
      rw [pboard_line board m board[m] (List.getElem?_eq_getElem hm1) _ nq (by omega), e]
      rw [List.take_succ, List.getElem?_eq_getElem hm1]
      simp only [Option.toList, List.map_append, List.map_cons, List.map_nil, gridText,
        joinAll_append, joinAll_singleton, String.append_assoc]
  have := key nq (le_refl _)
  rw [List.take_of_length_le (by rw [hb.1])] at this
  exact this

end Queens

namespace Queens

theorem cellText_eq (c : Char) : cellText c = " Q " ↔ c = 'Q' := by
  unfold cellText
  by_cases h : c = 'Q'
  · simp [h]
  · simp only [h, if_false, iff_false]
    decide

theorem cellText_cases (c : Char) : cellText c = " Q " ∨ cellText c = " + " := by
  unfold cellText
  split
  · exact Or.inl rfl
  · exact Or.inr rfl

theorem isMarker_map (board : List (List Char)) (i j : Nat) :
    isMarker (board.map (fun row => row.map cellText)) i j ↔ isQueen board i j := by
  unfold isMarker isQueen
  rw [List.getElem?_map]
  cases board[i]? with
  | none => simp
  | some row =>
    simp only [Option.map_some', Option.some_bind, List.getElem?_map]
    cases row[j]? with
    | none => simp
    | some c => simp [cellText_eq]

theorem count_eq_one {α : Type} [DecidableEq α] (a : α) : ∀ l : List α,
    (∃! j : Nat, l[j]? = some a) → l.count a = 1 := by
  intro l
  induction l with
  | nil => rintro ⟨j, hj, _⟩; simp at hj
  | cons x xs ih =>
    rintro ⟨j, hj, huniq⟩
    by_cases hx : x = a
    · subst hx
      have hnot : x ∉ xs := by
        intro hmem
        obtain ⟨k, hk, e⟩ := List.getElem_of_mem hmem
        have h1 := huniq (k + 1) (by simp [List.getElem?_eq_getElem hk, e])
        have h0 := huniq 0 (by simp)
        omega
      simp [List.count_cons, List.count_eq_zero_of_not_mem hnot]
    · cases j with
      | zero => simp at hj; exact absurd hj hx
      | succ j =>
        have hj1 : xs[j]? = some a := by simpa using hj
        have : xs.count a = 1 := by
          apply ih
          refine ⟨j, hj1, ?_⟩
          intro k hk
          have := huniq (k + 1) (by simpa using hk)
          omega
        rw [List.count_cons, this]
        simp [hx]

theorem sum_map_eq_length {α : Type} (f : α → Nat) : ∀ l : List α,
    (∀ x ∈ l, f x = 1) → (l.map f).sum = l.length := by
  intro l
  induction l with
  | nil => intro _; rfl
  | cons x xs ih =>
    intro h
    simp only [List.map_cons, List.sum_cons, List.length_cons]
    rw [h x (by simp), ih (fun y hy => h y (by simp [hy]))]
    omega

/-- The text that `pboard` prints for a board that holds a queen grid. -/
theorem pboard_of_queenGrid (nq : Nat) (board : List (List Char)) (hb : GoodDims nq board)
    (hg : QueenGrid nq board) :
    ∃ grid : List (List String), pboard nq board = some (gridText grid) ∧
      grid.length = nq ∧
      (∀ cells ∈ grid, cells.length = nq ∧ ∀ c ∈ cells, c = " Q " ∨ c = " + ") ∧
      (∀ i, i < nq → ∃! j, j < nq ∧ isMarker grid i j) ∧
      (∀ j, j < nq → ∃! i, i < nq ∧ isMarker grid i j) ∧
      (grid.map (fun cells => cells.count " Q ")).sum = nq := by
  have hcells : ∀ cells ∈ board.map (fun row => row.map cellText), cells.length = nq := by
    intro cells hc
    simp only [List.mem_map] at hc
    obtain ⟨row, hrow, rfl⟩ := hc
    simp [hb.2 row hrow]
  refine ⟨board.map (fun row => row.map cellText), pboard_spec nq board hb, by simp [hb.1],
    ?_, ?_, ?_, ?_⟩
  · intro cells hc
    refine ⟨hcells cells hc, ?_⟩
    simp only [List.mem_map] at hc
    obtain ⟨row, _, rfl⟩ := hc
    intro c hcm
    simp only [List.mem_map] at hcm
    obtain ⟨ch, _, rfl⟩ := hcm
    exact cellText_cases ch
  · intro i hi
    obtain ⟨j, ⟨hj, hq⟩, hu⟩ := hg.1 i hi
    exact ⟨j, ⟨hj, (isMarker_map board i j).2 hq⟩,
      fun k ⟨hk, hm⟩ => hu k ⟨hk, (isMarker_map board i k).1 hm⟩⟩
  · intro j hj
    obtain ⟨i, ⟨hi, hq⟩, hu⟩ := hg.2.1 j hj
    exact ⟨i, ⟨hi, (isMarker_map board i j).2 hq⟩,
      fun k ⟨hk, hm⟩ => hu k ⟨hk, (isMarker_map board k j).1 hm⟩⟩
  · have hlen : (board.map (fun row => row.map cellText)).length = nq := by simp [hb.1]
    rw [sum_map_eq_length, hlen]
    intro cells hc
    obtain ⟨i, hi, rfl⟩ := List.getElem_of_mem hc
    have hi2 : i < nq := by rw [← hlen]; exact hi
    apply count_eq_one
    obtain ⟨j, ⟨hj, hq⟩, hu⟩ := hg.1 i hi2
    have hm := (isMarker_map board i j).2 hq
    unfold isMarker at hm
    rw [List.getElem?_eq_getElem hi] at hm
    refine ⟨j, hm, ?_⟩
    intro k hk
    have hk2 : k < nq := by
      have hl := hcells _ (List.getElem_mem hi)
      have := (List.getElem?_eq_some.1 hk).1
      omega
    apply hu k
    refine ⟨hk2, (isMarker_map board i k).1 ?_⟩
    unfold isMarker
    rw [List.getElem?_eq_getElem hi]
    exact hk

theorem count_line_eight :
    count_line 92 8 = "\nThere are 92 solutions for 8 queens. Here\x27s one of them:\n\n" := by
  decide

end Queens

namespace Search

theorem exists_nonAttacking_iff (nq : Nat) :
    (∃ q : Fin nq → Fin nq, NonAttacking q) ↔ solsFrom nq nq [] ≠ [] := by
  rw [← List.length_pos, ← card_nonAttacking, Fintype.card_pos_iff]
  constructor
  · rintro ⟨q, hq⟩; exact ⟨⟨q, hq⟩⟩
  · rintro ⟨⟨q, hq⟩⟩; exact ⟨q, hq⟩

theorem solsFrom_two_three : solsFrom 2 2 [] = [] ∧ solsFrom 3 3 [] = [] := by
  decide

end Search

/-- C13: for every `N` for which a solution exists, the text that `pboard` prints
after the sequential search (started with a positive `show`) is a grid of `N` lines
of `N` cells, every cell `" Q "` or `" + "`, with exactly one `" Q "` on every line
and in every cell position, hence `N` markers; for `N = 8` a solution exists and the
count line printed by `main` is `There are 92 solutions for 8 queens.` followed by
` Here's one of them:`. -/
theorem Queens.pboard_prints_solution :
    (∀ (charSigned : Bool) (nq fuel : Nat) (st : Queens.State), nq < fuel →
      st.queen_on.length = nq → Queens.GoodDims nq st.board → 0 < st.showFlag →
      (∃ q : Fin nq → Fin nq, Search.NonAttacking q) →
      ∃ st1 grid, Queens.nqueens charSigned nq fuel 0 st = some st1 ∧
        Queens.pboard nq st1.board = some (Queens.gridText grid) ∧
        grid.length = nq ∧
        (∀ cells ∈ grid, cells.length = nq ∧ ∀ c ∈ cells, c = " Q " ∨ c = " + ") ∧
        (∀ i, i < nq → ∃! j, j < nq ∧ Queens.isMarker grid i j) ∧
        (∀ j, j < nq → ∃! i, i < nq ∧ Queens.isMarker grid i j) ∧
        (grid.map (fun cells => cells.count " Q ")).sum = nq) ∧
    (∃ q : Fin 8 → Fin 8, Search.NonAttacking q) ∧
    (∀ (charSigned : Bool) (st : Queens.State), st.queen_on.length = 8 →
      Queens.GoodDims 8 st.board → st.solutions = 0 →
      ∃ st1, Queens.nqueens charSigned 8 9 0 st = some st1 ∧
        Queens.count_line st1.solutions 8 =
          "\nThere are 92 solutions for 8 queens. Here\x27s one of them:\n\n") := by
  refine ⟨?_, ?_, ?_⟩
  · intro sgn nq fuel st hf hq hb hs hex
    obtain ⟨st1, e1, _, _, e4⟩ := Queens.nqueens_spec sgn nq nq 0 fuel st (by omega) hf hq hb
    simp only [List.take_zero] at e4
    have hsols : ∀ q ∈ Search.solsFrom nq nq [], Search.IsPlacement nq q :=
      fun q h => (Search.mem_solsFrom_nil nq q).1 h
    have hbd : st1.board = (Queens.view st1).board := rfl
    have hg : Queens.QueenGrid nq st1.board := by
      rw [hbd, e4]
      exact (Queens.absorb_board sgn nq _ hsols (Queens.view st)).2.1 hs
        ((Search.exists_nonAttacking_iff nq).1 hex)
    have hd : Queens.GoodDims nq st1.board := by
      rw [hbd, e4]
      exact Queens.absorb_dims sgn nq _ _ hb
    obtain ⟨grid, g⟩ := Queens.pboard_of_queenGrid nq st1.board hd hg
    exact ⟨st1, grid, e1, g⟩
  · rw [Search.exists_nonAttacking_iff]
    intro h
    have := solsFrom_length_8
    rw [h] at this
    simp at this
  · intro sgn st hq hb h0
    obtain ⟨st1, e1, e2⟩ := Queens.nqueens_count sgn 8 9 (by omega) st hq hb
    refine ⟨st1, e1, ?_⟩
    rw [e2, h0, solsFrom_length_8]
    exact Queens.count_line_eight

/-- C19: the sequential search writes the board only on reaching a complete
placement: if `solutions` is unchanged after `nqueens (0)` the board is unchanged,
and for `N = 2` and `N = 3`, which have no solution, the board (hence the grid that
`pboard` prints afterwards) is exactly as it was before the search. -/
theorem Queens.board_untouched_without_solution (charSigned : Bool) (nq fuel : Nat)
    (hf : nq < fuel) (st : Queens.State) (hq : st.queen_on.length = nq)
    (hb : Queens.GoodDims nq st.board) :
    ∃ st1, Queens.nqueens charSigned nq fuel 0 st = some st1 ∧
      (st1.solutions = st.solutions → st1.board = st.board) ∧
      (nq = 2 ∨ nq = 3 →
        st1.solutions = st.solutions ∧ st1.board = st.board ∧
        Queens.pboard nq st1.board = Queens.pboard nq st.board) := by
  obtain ⟨st1, e1, _, _, e4⟩ := Queens.nqueens_spec charSigned nq nq 0 fuel st (by omega) hf hq hb
  simp only [List.take_zero] at e4
  have hbd : st1.board = (Queens.view st1).board := rfl
  have hsl : st1.solutions = (Queens.view st1).solutions := rfl
  have hnil : Search.solsFrom nq nq [] = [] → st1.solutions = st.solutions ∧ st1.board = st.board := by
    intro h
    rw [h] at e4
    rw [hbd, hsl, e4]
    exact ⟨rfl, rfl⟩
  refine ⟨st1, e1, ?_, ?_⟩
  · intro h
    apply (hnil _).2
    rw [hsl, e4, Queens.absorb_solutions] at h
    have h2 : ((Search.solsFrom nq nq []).length : Int) = 0 := by
      have : (Queens.view st).solutions = st.solutions := rfl
      omega
    exact List.length_eq_zero.1 (by exact_mod_cast h2)
  · intro h
    have hs : Search.solsFrom nq nq [] = [] := by
      rcases h with rfl | rfl
      · exact Search.solsFrom_two_three.1
      · exact Search.solsFrom_two_three.2
    obtain ⟨a, b⟩ := hnil hs
    exact ⟨a, b, by rw [b]⟩

namespace QueensPth

end QueensPth

theorem forEach_map_fst {α σ τ : Type} (bodyT : α → σ × τ → Option (σ × τ))
    (body : α → σ → Option σ)
    (h : ∀ a s t, (bodyT a (s, t)).map Prod.fst = body a s) :
    ∀ (L : List α) (s : σ) (t : τ),
      (forEach L bodyT (s, t)).map Prod.fst = forEach L body s := by
  intro L
  induction L with
  | nil => intro s t; rfl
  | cons a L ih =>
    intro s t
    have ha := h a s t
    simp only [forEach]
    cases hb : bodyT a (s, t) with
    | none =>
      rw [hb] at ha
      simp only [Option.map_none'] at ha
      rw [← ha]; rfl
    | some r =>
      rw [hb] at ha
      simp only [Option.map_some'] at ha
      rw [← ha]
      exact ih r.1 r.2

/-- Erasing the log of the traced sequential search gives the search itself. -/
theorem Queens.nqueensT_erase (sgn : Bool) (nq : Nat) :
    ∀ fuel col (st : Queens.State) (log : List Call),
      (Queens.nqueensT sgn nq fuel col (st, log)).map Prod.fst = Queens.nqueens sgn nq fuel col st := by
  intro fuel
  induction fuel with
  | zero => intro col st log; rfl
  | succ fuel ih =>
    intro col st log
    have hcomp : ∀ x : Option (Queens.State × List Call),
        Option.map Prod.fst (Option.map
          (fun r => (r.1, r.2 ++ [(⟨col, fuel + 1, st.queen_on, r.1.queen_on⟩ : Call)])) x)
          = Option.map Prod.fst x := by
      intro x; cases x <;> rfl
    by_cases hcol : col = nq
    · simp only [Queens.nqueensT, Queens.nqueens, hcol, if_true]
      by_cases hs : st.showFlag > 0
      · simp only [hs, if_true]
        cases Queens.capture nq st.queen_on st.board <;> rfl
      · simp only [hs, if_false]
        rfl
    · simp only [Queens.nqueensT, Queens.nqueens, hcol, if_false]
      refine (hcomp _).trans ?_
      refine forEach_map_fst _ _ ?_ (List.range nq) st log
      intro i s t
      simp only
      cases Queens.scan s.queen_on (i : Int) col col 0 with
      | none => rfl
      | some j =>
        simp only
        by_cases hj : j < col
        · simp only [hj, if_true]; rfl
        · simp only [hj, if_false]
          cases Queens.setQueen s col (i : Int) with
          | none => rfl
          | some s1 => exact ih (col + 1) s1 t

/-- Erasing the log of the traced parallel search gives the search itself. -/
theorem QueensPth.nqueensT_pth_erase (nq nthreads t : Nat) :
    ∀ fuel col (st : QueensPth.State) (log : List Call),
      (QueensPth.nqueensT nq nthreads fuel col t (st, log)).map Prod.fst
        = QueensPth.nqueens nq nthreads fuel col t st := by
  intro fuel
  induction fuel with
  | zero => intro col st log; rfl
  | succ fuel ih =>
    intro col st log
    simp only [QueensPth.nqueensT, QueensPth.nqueens]
    by_cases h0 : col = 0 ∧ nthreads = 0
    · simp only [h0, and_self, if_true]; rfl
    · simp only [h0, if_false]
      cases hst : (if col = nq then QueensPth.incSolutions st t else some st) with
      | none => rfl
      | some st1 =>
        simp only
        have hcomp : ∀ x : Option (QueensPth.State × List Call),
            Option.map Prod.fst (Option.map
              (fun r => (r.1, r.2 ++ [(⟨col, fuel + 1, (st.queen_on[t]?).getD [],
                (r.1.queen_on[t]?).getD []⟩ : Call)])) x)
              = Option.map Prod.fst x := by
          intro x; cases x <;> rfl
        refine (hcomp _).trans ?_
        refine forEach_map_fst _ _ ?_ _ st1 log
        intro i s l
        simp only
        cases QueensPth.scan s.queen_on i col t col 0 with
        | none => rfl
        | some j =>
          simp only
          by_cases hj : j < col
          · simp only [hj, if_true]; rfl
          · simp only [hj, if_false]
            cases QueensPth.setQueen s t col i with
            | none => rfl
            | some s1 => exact ih (col + 1) s1 l

theorem Queens.safeRow_of_scan (qo : List Int) (i : Int) (col j : Nat) (hlen : col ≤ qo.length)
    (hsc : Queens.scan qo i col col 0 = some j) (hj : ¬ j < col) :
    Search.safeRow (qo.take col) i = true := by
  obtain ⟨j1, e1, _, e3⟩ := Queens.scan_spec qo i col col 0 (by omega) hlen
  rw [hsc] at e1
  have e : j = j1 := Option.some.inj e1
  subst e
  simp only [List.drop_zero] at e3
  have hl : (qo.take col).length = col := by simp; omega
  unfold Search.safeRow
  rw [hl]
  cases hcf : Search.conflictFree (qo.take col) col i with
  | true => rfl
  | false => exact absurd (e3.2 hcf) hj

/-- Every call logged by the traced sequential search satisfies `CallOK`. -/
theorem Queens.nqueensT_log (sgn : Bool) (nq : Nat) :
    ∀ fuel col (st : Queens.State) (log : List Call) (r : Queens.State × List Call),
      Queens.nqueensT sgn nq fuel col (st, log) = some r →
      st.queen_on.length = nq → col ≤ nq → Search.Valid nq (st.queen_on.take col) →
      ∃ ext, r.2 = log ++ (ext ++ [⟨col, fuel, st.queen_on, r.1.queen_on⟩]) ∧
        r.1.queen_on.length = nq ∧ r.1.queen_on.take col = st.queen_on.take col ∧
        ∀ c ∈ ext ++ [(⟨col, fuel, st.queen_on, r.1.queen_on⟩ : Call)],
          CallOK nq (col + fuel) c := by
  intro fuel
  induction fuel with
  | zero => intro col st log r h; simp [Queens.nqueensT] at h
  | succ fuel ih =>
    intro col st log r h hq hc hv
    simp only [Queens.nqueensT, Option.map_eq_some'] at h
    obtain ⟨x, hx, hr⟩ := h
    have finish : x.1.queen_on.length = nq → x.1.queen_on.take col = st.queen_on.take col →
        (∃ ext, x.2 = log ++ ext ∧ ∀ c ∈ ext, CallOK nq (col + (fuel + 1)) c) →
        ∃ ext, r.2 = log ++ (ext ++ [⟨col, fuel + 1, st.queen_on, r.1.queen_on⟩]) ∧
          r.1.queen_on.length = nq ∧ r.1.queen_on.take col = st.queen_on.take col ∧
          ∀ c ∈ ext ++ [(⟨col, fuel + 1, st.queen_on, r.1.queen_on⟩ : Call)],
            CallOK nq (col + (fuel + 1)) c := by
      intro h1 h2 ⟨ext, h3, h4⟩
      subst hr
      refine ⟨ext, by simp [h3], h1, h2, ?_⟩
      intro c hcm
      rcases List.mem_append.1 hcm with hm | hm
      · exact h4 c hm
      · simp only [List.mem_singleton] at hm
        subst hm
        exact ⟨hc, rfl, hq, h1, hv, h2⟩
    by_cases hcol : col = nq
    · simp only [hcol, if_true] at hx
      have hx1 : x.1.queen_on = st.queen_on ∧ x.2 = log := by
        by_cases hs : st.showFlag > 0
        · simp only [hs, if_true] at hx
          cases hcap : Queens.capture nq st.queen_on st.board with
          | none => simp [hcap] at hx
          | some b =>
            simp only [hcap, Option.some.injEq] at hx
            subst hx
            exact ⟨rfl, rfl⟩
        · simp only [hs, if_false, Option.some.injEq] at hx
          subst hx
          exact ⟨rfl, rfl⟩
      exact finish (by rw [hx1.1]; exact hq) (by rw [hx1.1])
        ⟨[], by simp [hx1.2], fun c hcm => by simp at hcm⟩
    · simp only [hcol, if_false] at hx
      have hlt : col < nq := by omega
      have loop : ∀ (L : List Nat), (∀ i ∈ L, i < nq) →
          ∀ (s y : Queens.State × List Call),
          forEach L (fun i s =>
            match Queens.scan s.1.queen_on (i : Int) col col 0 with
            | none => none
            | some j =>
              if j < col then some s
              else
                match Queens.setQueen s.1 col (i : Int) with
                | none => none
                | some s1 => Queens.nqueensT sgn nq fuel (col + 1) (s1, s.2)) s = some y →
          s.1.queen_on.length = nq → Search.Valid nq (s.1.queen_on.take col) →
          y.1.queen_on.length = nq ∧ y.1.queen_on.take col = s.1.queen_on.take col ∧
          ∃ ext, y.2 = s.2 ++ ext ∧ ∀ c ∈ ext, CallOK nq (col + (fuel + 1)) c := by
        intro L
        induction L with
        | nil =>
          intro _ s y hy h1 _
          simp only [forEach, Option.some.injEq] at hy
          subst hy
          exact ⟨h1, rfl, [], by simp, fun c hcm => by simp at hcm⟩
        | cons i L ihL =>
          intro hL s y hy h1 h2
          have hi : i < nq := hL i (by simp)
          have hL2 : ∀ k ∈ L, k < nq := fun k hk => hL k (by simp [hk])
          simp only [forEach] at hy
          cases hsc : Queens.scan s.1.queen_on (i : Int) col col 0 with
          | none => simp [hsc] at hy
          | some j =>
            simp only [hsc] at hy
            by_cases hj : j < col
            · simp only [hj, if_true] at hy
              exact ihL hL2 s y hy h1 h2
            · simp only [hj, if_false] at hy
              have hcl : col < s.1.queen_on.length := by omega
              have hset : Queens.setQueen s.1 col (i : Int) =
                  some { s.1 with queen_on := s.1.queen_on.set col (i : Int) } := by
                simp [Queens.setQueen, hcl]
              simp only [hset] at hy
              cases hrec : Queens.nqueensT sgn nq fuel (col + 1)
                  ({ s.1 with queen_on := s.1.queen_on.set col (i : Int) }, s.2) with
              | none => simp [hrec] at hy
              | some s2 =>
                simp only [hrec] at hy
                have hsafe := Queens.safeRow_of_scan s.1.queen_on (i : Int) col j (by omega) hsc hj
                have hv2 : Search.Valid nq
                    ((s.1.queen_on.set col (i : Int)).take (col + 1)) := by
                  rw [take_succ_set _ _ _ hcl]
                  exact Search.valid_snoc nq _ _ h2 ⟨by omega, by omega⟩ hsafe
                obtain ⟨ext1, a1, a2, a3, a4⟩ := ih (col + 1) _ s.2 s2 hrec
                  (by simp [h1]) (by omega) hv2
                simp only at a1 a3 a4
                generalize ext1 ++ [(⟨col + 1, fuel, s.1.queen_on.set col (i : Int),
                  s2.1.queen_on⟩ : Call)] = extA at a1 a4
                rw [take_succ_set _ _ _ hcl] at a3
                have a5 : s2.1.queen_on.take col = s.1.queen_on.take col :=
                  take_of_take_succ _ _ _ _ a3 (by omega)
                obtain ⟨b1, b2, ext2, b3, b4⟩ := ihL hL2 s2 y hy a2 (by rw [a5]; exact h2)
                refine ⟨b1, b2.trans a5, extA ++ ext2, ?_, ?_⟩
                · rw [b3, a1]; simp
                · intro c hcm
                  rcases List.mem_append.1 hcm with hm | hm
                  · have := a4 c hm
                    have e : col + 1 + fuel = col + (fuel + 1) := by omega
                    rw [e] at this
                    exact this
                  · exact b4 c hm
      obtain ⟨l1, l2, l3⟩ := loop (List.range nq) (fun i hi => List.mem_range.1 hi)
        (st, log) x hx hq hv
      exact finish l1 l2 l3

/-- Every call logged by the traced parallel search satisfies `CallOK`. -/
theorem QueensPth.nqueensT_pth_log (nq nthreads t : Nat) (ht : t < nthreads) :
    ∀ fuel col (st : QueensPth.State) (log : List Call) (r : QueensPth.State × List Call)
      (row : List Int),
      QueensPth.nqueensT nq nthreads fuel col t (st, log) = some r →
      st.queen_on[t]? = some row → row.length = nq → col ≤ nq →
      Search.Valid nq (row.take col) →
      ∃ ext row1, r.2 = log ++ (ext ++ [⟨col, fuel, row, row1⟩]) ∧
        r.1.queen_on[t]? = some row1 ∧ row1.length = nq ∧ row1.take col = row.take col ∧
        ∀ c ∈ ext ++ [(⟨col, fuel, row, row1⟩ : Call)], CallOK nq (col + fuel) c := by
  intro fuel
  induction fuel with
  | zero => intro col st log r row h; simp [QueensPth.nqueensT] at h
  | succ fuel ih =>
    intro col st log r row h hrow hlen hc hv
    simp only [QueensPth.nqueensT] at h
    by_cases h0 : col = 0 ∧ nthreads = 0
    · simp [h0] at h
    · simp only [h0, if_false] at h
      cases hst : (if col = nq then QueensPth.incSolutions st t else some st) with
      | none => simp [hst] at h
      | some st1 =>
        simp only [hst, Option.map_eq_some'] at h
        obtain ⟨x, hx, hr⟩ := h
        have hq1 : st1.queen_on = st.queen_on := by
          by_cases hcol : col = nq
          · simp only [hcol, if_true, QueensPth.incSolutions] at hst
            cases hs : st.solutions[t]? with
            | none => simp [hs] at hst
            | some v =>
              simp only [hs, Option.some.injEq] at hst
              subst hst; rfl
          · simp only [hcol, if_false, Option.some.injEq] at hst
            subst hst; rfl
        have loop : ∀ (L : List Int), (∀ i ∈ L, 0 ≤ i ∧ i < (nq : Int)) →
            ∀ (s y : QueensPth.State × List Call) (row : List Int),
            forEach L (fun i s =>
              match QueensPth.scan s.1.queen_on i col t col 0 with
              | none => none
              | some j =>
                if j < col then some s
                else
                  match QueensPth.setQueen s.1 t col i with
                  | none => none
                  | some s1 => QueensPth.nqueensT nq nthreads fuel (col + 1) t (s1, s.2)) s
              = some y →
            s.1.queen_on[t]? = some row → row.length = nq →
            Search.Valid nq (row.take col) →
            ∃ row1, y.1.queen_on[t]? = some row1 ∧ row1.length = nq ∧
              row1.take col = row.take col ∧
              ∃ ext, y.2 = s.2 ++ ext ∧ ∀ c ∈ ext, CallOK nq (col + (fuel + 1)) c := by
          intro L
          induction L with
          | nil =>
            intro _ s y row hy h1 h2 _
            simp only [forEach, Option.some.injEq] at hy
            subst hy
            exact ⟨row, h1, h2, rfl, [], by simp, fun c hcm => by simp at hcm⟩
          | cons i L ihL =>
            intro hL s y row hy h1 h2 h3
            have hi := hL i (by simp)
            have hL2 : ∀ k ∈ L, 0 ≤ k ∧ k < (nq : Int) := fun k hk => hL k (by simp [hk])
            simp only [forEach] at hy
            cases hsc : QueensPth.scan s.1.queen_on i col t col 0 with
            | none => simp [hsc] at hy
            | some j =>
              simp only [hsc] at hy
              by_cases hj : j < col
              · simp only [hj, if_true] at hy
                exact ihL hL2 s y row hy h1 h2 h3
              · simp only [hj, if_false] at hy
                cases hset : QueensPth.setQueen s.1 t col i with
                | none => simp [hset] at hy
                | some s1 =>
                  simp only [hset] at hy
                  have hcl : col < row.length := by
                    simp only [QueensPth.setQueen, h1] at hset
                    by_contra hcon
                    simp [hcon] at hset
                  have hs1 : s1 = { s.1 with queen_on := s.1.queen_on.set t (row.set col i) } := by
                    simp only [QueensPth.setQueen, h1, hcl, if_true, Option.some.injEq] at hset
                    exact hset.symm
                  have htq : t < s.1.queen_on.length := (List.getElem?_eq_some.1 h1).1
                  cases hrec : QueensPth.nqueensT nq nthreads fuel (col + 1) t (s1, s.2) with
                  | none => simp [hrec] at hy
                  | some s2 =>
                    simp only [hrec] at hy
                    rw [QueensPth.scan_eq s.1.queen_on row t h1] at hsc
                    have hsafe := Queens.safeRow_of_scan row i col j (by omega) hsc hj
                    have hv2 : Search.Valid nq ((row.set col i).take (col + 1)) := by
                      rw [take_succ_set _ _ _ hcl]
                      exact Search.valid_snoc nq _ _ h3 hi hsafe
                    obtain ⟨ext1, row2, a1, a2, a3, a4, a5⟩ := ih (col + 1) s1 s.2 s2
                      (row.set col i) hrec
                      (by rw [hs1]; simp [List.getElem?_set_self htq]) (by simp [h2])
                      (by omega) hv2
                    generalize ext1 ++ [(⟨col + 1, fuel, row.set col i, row2⟩ : Call)]
                      = extA at a1 a5
                    rw [take_succ_set _ _ _ hcl] at a4
                    have a6 : row2.take col = row.take col :=
                      take_of_take_succ _ _ _ _ a4 (by omega)
                    obtain ⟨row3, b1, b2, b3, ext2, b4, b5⟩ :=
                      ihL hL2 s2 y row2 hy a2 a3 (by rw [a6]; exact h3)
                    refine ⟨row3, b1, b2, b3.trans a6, extA ++ ext2, ?_, ?_⟩
                    · rw [b4, a1]; simp
                    · intro c hcm
                      rcases List.mem_append.1 hcm with hm | hm
                      · have := a5 c hm
                        have e : col + 1 + fuel = col + (fuel + 1) := by omega
                        rw [e] at this
                        exact this
                      · exact b5 c hm
        obtain ⟨row1, l1, l2, l3, ext, l4, l5⟩ := loop _
          (fun i hi => QueensPth.mem_rowsAt nq nthreads col t ht i hi)
          (st1, log) x row hx (by rw [hq1]; exact hrow) hlen hv
        subst hr
        refine ⟨ext, row1, by simp [l4, hrow, l1], l1, l2, l3, ?_⟩
        intro c hcm
        rcases List.mem_append.1 hcm with hm | hm
        · exact l5 c hm
        · simp only [List.mem_singleton] at hm
          subst hm
          exact ⟨hc, rfl, hlen, l2, hv, l3⟩

theorem Queens.traced_run (sgn : Bool) (nq fuel : Nat) (hf : nq < fuel) (st : Queens.State)
    (hq : st.queen_on.length = nq) (hb : Queens.GoodDims nq st.board) :
    ∃ st1 log, Queens.nqueensT sgn nq fuel 0 (st, []) = some (st1, log) ∧
      Queens.nqueens sgn nq fuel 0 st = some st1 ∧
      (∃ ext, log = ext ++ [⟨0, fuel, st.queen_on, st1.queen_on⟩]) ∧
      ∀ c ∈ log, CallOK nq fuel c := by
  obtain ⟨st1, e1, _⟩ := Queens.nqueens_spec sgn nq nq 0 fuel st (by omega) hf hq hb
  have he := Queens.nqueensT_erase sgn nq fuel 0 st []
  rw [e1, Option.map_eq_some'] at he
  obtain ⟨r, hr, hr1⟩ := he
  obtain ⟨ext, a1, _, _, a4⟩ := Queens.nqueensT_log sgn nq fuel 0 st [] r hr hq (by omega)
    (by simpa using Search.valid_nil nq)
  simp only [List.nil_append, Nat.zero_add] at a1 a4
  subst hr1
  refine ⟨r.1, r.2, hr, e1, ⟨ext, a1⟩, ?_⟩
  rw [a1]; exact a4

theorem QueensPth.traced_pth_run (nq nthreads t fuel : Nat) (ht : t < nthreads) (hf : nq < fuel)
    (st : QueensPth.State) (row : List Int) (v : Int) (hrow : st.queen_on[t]? = some row)
    (hlen : row.length = nq) (hsol : st.solutions[t]? = some v) :
    ∃ st1 log, QueensPth.nqueensT nq nthreads fuel 0 t (st, []) = some (st1, log) ∧
      QueensPth.nqueens nq nthreads fuel 0 t st = some st1 ∧
      (∃ ext row1, log = ext ++ [⟨0, fuel, row, row1⟩]) ∧
      ∀ c ∈ log, CallOK nq fuel c := by
  obtain ⟨st1, _, e1, _⟩ := QueensPth.nqueens_pth_spec nq nthreads t ht nq 0 fuel st row v
    (by omega) hf hrow hlen hsol (by simpa using Search.valid_nil nq)
  have he := QueensPth.nqueensT_pth_erase nq nthreads t fuel 0 st []
  rw [e1, Option.map_eq_some'] at he
  obtain ⟨r, hr, hr1⟩ := he
  obtain ⟨ext, row1, a1, _, _, _, a5⟩ := QueensPth.nqueensT_pth_log nq nthreads t ht fuel 0 st [] r
    row hr hrow hlen (by omega) (by simpa using Search.valid_nil nq)
  simp only [List.nil_append, Nat.zero_add] at a1 a5
  subst hr1
  refine ⟨r.1, r.2, hr, e1, ⟨ext, row1, a1⟩, ?_⟩
  rw [a1]; exact a5

theorem take_le_of_take_eq {α : Type} (l1 l2 : List α) (c k : Nat) (hk : k ≤ c)
    (h : l1.take c = l2.take c) : l1.take k = l2.take k := by
  have e1 : (l1.take c).take k = l1.take k := by rw [List.take_take]; congr 1; omega
  have e2 : (l2.take c).take k = l2.take k := by rw [List.take_take]; congr 1; omega
  rw [← e1, ← e2, h]

theorem wellFormed_row (nq : Nat) (st : QueensPth.State) (hwf : QueensPth.WellFormed nq st)
    (t : Nat) (ht : t < nq) :
    ∃ row v, st.queen_on[t]? = some row ∧ row.length = nq ∧ st.solutions[t]? = some v := by
  obtain ⟨w1, w2, w3⟩ := hwf
  have h1 : t < st.queen_on.length := by omega
  have h2 : t < st.solutions.length := by omega
  exact ⟨st.queen_on[t], st.solutions[t], List.getElem?_eq_getElem h1,
    w3 _ (List.getElem_mem _), List.getElem?_eq_getElem h2⟩

/-- C15: every call `nqueens (c)` of the sequential search and every call
`nqueens (c, t)` of a worker of the parallel search, started at column 0, finds in
`queen_on[0 .. c - 1]` rows of the board no two of which are equal or at a row
distance equal to their column distance, and returns with `queen_on[0 .. k - 1]`
unchanged for every `k ≤ c` (in particular the rows placed by its caller). -/
theorem search_context_invariant (charSigned : Bool) (nq nthreads t fuel : Nat)
    (ht : t < nthreads) (hT : nthreads ≤ nq) (hf : nq < fuel)
    (sst : Queens.State) (hq : sst.queen_on.length = nq) (hb : Queens.GoodDims nq sst.board)
    (pst : QueensPth.State) (hwf : QueensPth.WellFormed nq pst) :
    (∃ st1 log, Queens.nqueensT charSigned nq fuel 0 (sst, []) = some (st1, log) ∧
      Queens.nqueens charSigned nq fuel 0 sst = some st1 ∧ log ≠ [] ∧
      ∀ c ∈ log, Search.Valid nq (c.entry.take c.col) ∧
        ∀ k, k ≤ c.col → c.exit_.take k = c.entry.take k) ∧
    (∃ st1 log, QueensPth.nqueensT nq nthreads fuel 0 t (pst, []) = some (st1, log) ∧
      QueensPth.nqueens nq nthreads fuel 0 t pst = some st1 ∧ log ≠ [] ∧
      ∀ c ∈ log, Search.Valid nq (c.entry.take c.col) ∧
        ∀ k, k ≤ c.col → c.exit_.take k = c.entry.take k) := by
  constructor
  · obtain ⟨st1, log, e1, e2, ⟨ext, e3⟩, e4⟩ := Queens.traced_run charSigned nq fuel hf sst hq hb
    refine ⟨st1, log, e1, e2, by rw [e3]; simp, ?_⟩
    intro c hc
    obtain ⟨_, _, _, _, h5, h6⟩ := e4 c hc
    exact ⟨h5, fun k hk => take_le_of_take_eq _ _ _ k hk h6⟩
  · obtain ⟨row, v, r1, r2, r3⟩ := wellFormed_row nq pst hwf t (by omega)
    obtain ⟨st1, log, e1, e2, ⟨ext, row1, e3⟩, e4⟩ :=
      QueensPth.traced_pth_run nq nthreads t fuel ht hf pst row v r1 r2 r3
    refine ⟨st1, log, e1, e2, by rw [e3]; simp, ?_⟩
    intro c hc
    obtain ⟨_, _, _, _, h5, h6⟩ := e4 c hc
    exact ⟨h5, fun k hk => take_le_of_take_eq _ _ _ k hk h6⟩

/-- C16: with a recursion budget above `nq` the sequential `nqueens (0)` and, for
`t < nthreads ≤ nq`, the parallel `nqueens (0, t)` return; every call they make is at
a column `c ≤ nq` and at recursion depth `c` (its budget is the initial budget less
`c`), so the measure `nq - c` decreases by one at each nested call and never goes
below zero. -/
theorem search_terminates (charSigned : Bool) (nq nthreads t fuel : Nat)
    (ht : t < nthreads) (hT : nthreads ≤ nq) (hf : nq < fuel)
    (sst : Queens.State) (hq : sst.queen_on.length = nq) (hb : Queens.GoodDims nq sst.board)
    (pst : QueensPth.State) (hwf : QueensPth.WellFormed nq pst) :
    (∃ st1 log, Queens.nqueens charSigned nq fuel 0 sst = some st1 ∧
      Queens.nqueensT charSigned nq fuel 0 (sst, []) = some (st1, log) ∧
      ∀ c ∈ log, c.col ≤ nq ∧ c.budget = fuel - c.col ∧ 0 < c.budget) ∧
    (∃ st1 log, QueensPth.nqueens nq nthreads fuel 0 t pst = some st1 ∧
      QueensPth.nqueensT nq nthreads fuel 0 t (pst, []) = some (st1, log) ∧
      ∀ c ∈ log, c.col ≤ nq ∧ c.budget = fuel - c.col ∧ 0 < c.budget) := by
  constructor
  · obtain ⟨st1, log, e1, e2, _, e4⟩ := Queens.traced_run charSigned nq fuel hf sst hq hb
    refine ⟨st1, log, e2, e1, ?_⟩
    intro c hc
    obtain ⟨h1, h2, _⟩ := e4 c hc
    omega
  · obtain ⟨row, v, r1, r2, r3⟩ := wellFormed_row nq pst hwf t (by omega)
    obtain ⟨st1, log, e1, e2, _, e4⟩ :=
      QueensPth.traced_pth_run nq nthreads t fuel ht hf pst row v r1 r2 r3
    refine ⟨st1, log, e2, e1, ?_⟩
    intro c hc
    obtain ⟨h1, h2, _⟩ := e4 c hc
    omega

theorem Search.perm_of_isPlacement (nq : Nat) (p : List Int) (hp : Search.IsPlacement nq p) :
    p.Perm (Search.rows nq) := by
  have hsub : p ⊆ Search.rows nq := by
    intro x hx
    obtain ⟨k, hk, rfl⟩ := List.getElem_of_mem hx
    exact (Search.mem_rows nq _).2 (hp.2.1 k hk)
  exact (List.subperm_of_subset (Search.valid_nodup nq p hp.2) hsub).perm_of_length_le
    (by simp [Search.rows, hp.1])

theorem QueensPth.scan_conflict (nq t : Nat) (row : List Int) (hp : Search.IsPlacement nq row)
    (qo : List (List Int)) (hqo : qo[t]? = some row) (i : Int) (hi : 0 ≤ i ∧ i < (nq : Int)) :
    ∃ j, QueensPth.scan qo i nq t nq 0 = some j ∧ j < nq := by
  obtain ⟨j1, e1, _, e3⟩ := Queens.scan_spec row i nq nq 0 (by omega) (by rw [hp.1])
  refine ⟨j1, by rw [QueensPth.scan_eq qo row t hqo]; exact e1, ?_⟩
  apply e3.2
  have hns := Search.not_safeRow_of_isPlacement nq row hp i hi
  unfold Search.safeRow at hns
  rw [hp.1] at hns
  simpa [List.take_of_length_le (le_of_eq hp.1)] using hns

/-- C17: for `t < nthreads ≤ nq` the worker search `nqueens (0, t)` returns without
any out-of-bounds access (which the embedding would report as `none`); every call it
makes has `col ≤ nq`, so `nqueens (nq + 1, t)` is never called; and at every call
with `col = nq` the `nq` placed rows are a permutation of `0 .. nq - 1`, every
candidate row `i` of `0 .. nq - 1` makes the scan stop at a column `j < nq` (a
conflict), and the call returns with `queen_on[t]` as it found it. -/
theorem QueensPth.no_placement_at_last_column (nq nthreads t fuel : Nat)
    (ht : t < nthreads) (hT : nthreads ≤ nq) (hf : nq < fuel)
    (st : QueensPth.State) (hwf : QueensPth.WellFormed nq st) :
    ∃ st1 log, QueensPth.nqueens nq nthreads fuel 0 t st = some st1 ∧
      QueensPth.nqueensT nq nthreads fuel 0 t (st, []) = some (st1, log) ∧
      ∀ c ∈ log, c.col ≤ nq ∧
        (c.col = nq →
          c.entry.Perm (Search.rows nq) ∧
          (∀ (qo : List (List Int)) (i : Int), qo[t]? = some c.entry → 0 ≤ i → i < (nq : Int) →
            ∃ j, QueensPth.scan qo i nq t nq 0 = some j ∧ j < nq) ∧
          c.exit_ = c.entry) := by
  obtain ⟨row, v, r1, r2, r3⟩ := wellFormed_row nq st hwf t (by omega)
  obtain ⟨st1, log, e1, e2, _, e4⟩ :=
    QueensPth.traced_pth_run nq nthreads t fuel ht hf st row v r1 r2 r3
  refine ⟨st1, log, e2, e1, ?_⟩
  intro c hc
  obtain ⟨h1, _, h3, h4, h5, h6⟩ := e4 c hc
  refine ⟨h1, ?_⟩
  intro hcol
  rw [hcol, List.take_of_length_le (le_of_eq h3)] at h5 h6
  rw [List.take_of_length_le (le_of_eq h4)] at h6
  have hp : Search.IsPlacement nq c.entry := ⟨h3, h5⟩
  exact ⟨Search.perm_of_isPlacement nq _ hp,
    fun qo i hqo h0 hlt => QueensPth.scan_conflict nq t c.entry hp qo hqo i ⟨h0, hlt⟩, h6⟩

theorem QueensPth.rowsAt_empty (nq nthreads t : Nat) (hT : nq < nthreads)
    (ht : t + 1 < nthreads) :
    QueensPth.start nq nthreads 0 t = 0 ∧ QueensPth.end_ nq nthreads 0 t = -1 ∧
    QueensPth.rowsAt nq nthreads 0 t = [] := by
  have hdiv : nq / nthreads = 0 := Nat.div_eq_of_lt hT
  have hne : ¬ ((t : Int) = (nthreads : Int) - 1) := by omega
  have h1 : QueensPth.start nq nthreads 0 t = 0 := by simp [QueensPth.start, hdiv]
  have h2 : QueensPth.end_ nq nthreads 0 t = -1 := by simp [QueensPth.end_, hdiv, hne]
  refine ⟨h1, h2, ?_⟩
  rw [QueensPth.rowsAt, h1, h2]
  rfl

theorem QueensPth.rowsAt_last (nq nthreads : Nat) (hT : nq < nthreads) :
    QueensPth.start nq nthreads 0 (nthreads - 1) = 0 ∧
    QueensPth.end_ nq nthreads 0 (nthreads - 1) = (nq : Int) - 1 ∧
    QueensPth.rowsAt nq nthreads 0 (nthreads - 1) = Search.rows nq := by
  have hdiv : nq / nthreads = 0 := Nat.div_eq_of_lt hT
  have he : ((nthreads - 1 : Nat) : Int) = (nthreads : Int) - 1 := by omega
  have h1 : QueensPth.start nq nthreads 0 (nthreads - 1) = 0 := by simp [QueensPth.start, hdiv]
  have h2 : QueensPth.end_ nq nthreads 0 (nthreads - 1) = (nq : Int) - 1 := by
    simp [QueensPth.end_, he]
  refine ⟨h1, h2, ?_⟩
  rw [QueensPth.rowsAt, h1, h2]
  exact rowsFromTo_zero nq

theorem QueensPth.run_workers_fault (nq nthreads fuel : Nat) (hT : nq < nthreads)
    (hf : nq < fuel) (st : QueensPth.State) (hwf : QueensPth.WellFormed nq st) :
    QueensPth.run_workers nq nthreads fuel st = none := by
  have key : ∀ k, k ≤ nq →
      ∃ st1, forEach (List.range k) (fun i s => QueensPth.start_thread nq nthreads fuel i s) st
          = some st1 ∧ QueensPth.WellFormed nq st1 := by
    intro k
    induction k with
    | zero => intro _; exact ⟨st, rfl, hwf⟩
    | succ k ih =>
      intro hk
      obtain ⟨s1, e1, e2⟩ := ih (by omega)
      obtain ⟨s2, f1, _, f3, _⟩ :=
        QueensPth.start_thread_spec nq nthreads k fuel (by omega) hf s1 e2 (by omega)
      refine ⟨s2, ?_, f3⟩
      rw [List.range_succ, forEach_append, e1]
      simp [forEach, f1]
  obtain ⟨st1, e1, e2⟩ := key nq (le_refl _)
  obtain ⟨d, hd⟩ : ∃ d, nthreads = nq + (d + 1) := ⟨nthreads - nq - 1, by omega⟩
  have hfault : QueensPth.start_thread nq nthreads fuel nq st1 = none := by
    simp [QueensPth.start_thread, e2.1]
  rw [QueensPth.run_workers, hd, List.range_add, forEach_append, ← hd, e1, List.range_succ_eq_map]
  simp [forEach, hfault]

/-- C18 (the code departs from the claim; same defect as C5): for `nq ≥ 1` and
`nthreads > nq` the ranges are as the claim says (`[0, -1]` for every worker but the
last, `[0, nq - 1]` for the last), and every worker `t < nq` counts 0; but the tables
allocated by `main` have `nq` entries, so the workers `t ≥ nq`, among them the last
one, index `solutions[t]` out of bounds and the run of the workers faults.  Only on
tables that hold a slot for the last worker does that worker count all placements. -/
theorem QueensPth.more_threads_than_queens (nq nthreads fuel : Nat) (h1 : 1 ≤ nq)
    (hT : nq < nthreads) (hf : nq < fuel) (st : QueensPth.State)
    (hwf : QueensPth.WellFormed nq st) :
    (∀ t, t + 1 < nthreads →
      QueensPth.start nq nthreads 0 t = 0 ∧ QueensPth.end_ nq nthreads 0 t = -1) ∧
    (QueensPth.start nq nthreads 0 (nthreads - 1) = 0 ∧
      QueensPth.end_ nq nthreads 0 (nthreads - 1) = (nq : Int) - 1) ∧
    (∀ t, t < nq → ∃ st1, QueensPth.start_thread nq nthreads fuel t st = some st1 ∧
      st1.solutions[t]? = some 0) ∧
    (∀ t, nq ≤ t → QueensPth.start_thread nq nthreads fuel t st = none) ∧
    QueensPth.main_total nq nthreads fuel st = none ∧
    (∀ (big : QueensPth.State) (row : List Int) (v : Int),
      big.queen_on[nthreads - 1]? = some row → row.length = nq →
      big.solutions[nthreads - 1]? = some v →
      ∃ st1, QueensPth.nqueens nq nthreads fuel 0 (nthreads - 1) big = some st1 ∧
        st1.solutions[nthreads - 1]? = some (v +
          ((Fintype.card {q : Fin nq → Fin nq // Search.NonAttacking q} : Nat) : Int))) := by
  refine ⟨fun t ht => ⟨(QueensPth.rowsAt_empty nq nthreads t hT ht).1,
      (QueensPth.rowsAt_empty nq nthreads t hT ht).2.1⟩,
    ⟨(QueensPth.rowsAt_last nq nthreads hT).1, (QueensPth.rowsAt_last nq nthreads hT).2.1⟩,
    ?_, ?_, ?_, ?_⟩
  · intro t ht
    obtain ⟨st1, e1, _, _, e4⟩ :=
      QueensPth.start_thread_spec nq nthreads t fuel (by omega) hf st hwf ht
    refine ⟨st1, e1, ?_⟩
    rw [e4, (QueensPth.rowsAt_empty nq nthreads t hT (by omega)).2.2]
    obtain ⟨n, rfl⟩ : ∃ n, nq = n + 1 := ⟨nq - 1, by omega⟩
    simp [QueensPth.levelSols]
  · intro t ht
    have : ¬ t < st.solutions.length := by rw [hwf.1]; omega
    simp [QueensPth.start_thread, this]
  · simp [QueensPth.main_total, QueensPth.run_workers_fault nq nthreads fuel hT hf st hwf]
  · intro big row v hrow hlen hsol
    obtain ⟨st1, _, e1, _, _, _, _, e6⟩ := QueensPth.nqueens_pth_spec nq nthreads (nthreads - 1)
      (by omega) nq 0 fuel big row v (by omega) hf hrow hlen hsol
      (by simpa using Search.valid_nil nq)
    refine ⟨st1, e1, ?_⟩
    rw [e6, (QueensPth.rowsAt_last nq nthreads hT).2.2, QueensPth.levelSols_rows,
      List.take_zero, Search.card_nonAttacking]

/-! ## Instances of the theorems at concrete inputs -/

theorem Queens.nqueens_counts_nonattacking_witness :
    ∃ st1, Queens.nqueens true 4 5 0 (Queens.init 4) = some st1 ∧
      st1.solutions =
        ((Fintype.card {q : Fin 4 → Fin 4 // Search.NonAttacking q} : Nat) : Int) :=
  Queens.nqueens_counts_nonattacking true 4 5 (by decide) (Queens.init 4) (by decide)
    (Queens.init_dims 4) rfl

theorem QueensPth.main_total_eq_sequential_witness :
    ∃ sst1, Queens.nqueens true 8 9 0 (Queens.init 8) = some sst1 ∧
      QueensPth.main_total 8 3 9 (QueensPth.init 8) = some sst1.solutions :=
  QueensPth.main_total_eq_sequential true 8 3 9 (by decide) (by decide) (by decide)
    (QueensPth.init 8) (QueensPth.init_wellFormed 8) (Queens.init 8) (by decide)
    (Queens.init_dims 8) rfl

theorem QueensPth.ranges_partition_witness :
    (1 ≤ 3 ∧ 3 ≤ 8) ∧
    (∀ r : Int, 0 ≤ r → r < ((8 : Nat) : Int) →
      ∃! t, t < 3 ∧ QueensPth.start 8 3 0 t ≤ r ∧ r ≤ QueensPth.end_ 8 3 0 t) :=
  ⟨⟨by decide, by decide⟩, (QueensPth.ranges_partition 8 3 (by decide) (by decide)).2.1⟩

theorem solution_counts_known_witness :
    (8, 92) ∈ knownCounts ∧
    (∃ st1, Queens.nqueens true 8 9 0 (Queens.init 8) = some st1 ∧ st1.solutions = 92) ∧
    QueensPth.main_total 8 4 9 (QueensPth.init 8) = some 92 :=
  ⟨by decide,
    (solution_counts_known (8, 92) (by decide)).1 true (Queens.init 8) (by decide)
      (Queens.init_dims 8) rfl,
    (solution_counts_known (8, 92) (by decide)).2 4 (QueensPth.init 8) (by decide) (by decide)
      (QueensPth.init_wellFormed 8)⟩

theorem Queens.captured_board_is_queen_grid_witness :
    ∃ st1, Queens.nqueens true 4 5 0 (Queens.init 4) = some st1 ∧
      (st1.board = (Queens.init 4).board ∨ Queens.QueenGrid 4 st1.board) ∧
      (0 < (Queens.init 4).showFlag → st1.solutions ≠ (Queens.init 4).solutions →
        Queens.QueenGrid 4 st1.board) :=
  Queens.captured_board_is_queen_grid true 4 5 (by decide) (Queens.init 4) (by decide)
    (Queens.init_dims 4)

theorem QueensPth.start_thread_frame_witness :
    ∃ st1, QueensPth.start_thread 8 3 9 1 (QueensPth.init 8) = some st1 ∧
      (∀ u, u ≠ 1 → st1.queen_on[u]? = (QueensPth.init 8).queen_on[u]? ∧
        st1.solutions[u]? = (QueensPth.init 8).solutions[u]?) ∧
      ∀ st2 : QueensPth.State, QueensPth.WellFormed 8 st2 →
        ∃ st3, QueensPth.start_thread 8 3 9 1 st2 = some st3 ∧
          st3.solutions[1]? = st1.solutions[1]? :=
  QueensPth.start_thread_frame 8 3 1 9 (by decide) (by decide) (by decide)
    (QueensPth.init 8) (QueensPth.init_wellFormed 8)

theorem Queens.board_recaptured_after_wrap_witness :
    ∃ st1 q, Queens.nqueens true 9 10 0 (Queens.init 9) = some st1 ∧
      (Search.solsFrom 9 9 []).head? = some [0, 2, 5, 7, 1, 3, 8, 6, 4] ∧
      q ∈ Search.solsFrom 9 9 [] ∧ q ≠ [0, 2, 5, 7, 1, 3, 8, 6, 4] ∧
      st1.board = Queens.render 9 q ∧
      st1.board ≠ Queens.render 9 [0, 2, 5, 7, 1, 3, 8, 6, 4] :=
  Queens.board_recaptured_after_wrap.1 (Queens.init 9) (by decide) (Queens.init_dims 9) rfl rfl

theorem Queens.pboard_prints_solution_witness :
    ∃ st1 grid, Queens.nqueens true 4 5 0 (Queens.init 4) = some st1 ∧
      Queens.pboard 4 st1.board = some (Queens.gridText grid) ∧
      grid.length = 4 ∧
      (∀ cells ∈ grid, cells.length = 4 ∧ ∀ c ∈ cells, c = " Q " ∨ c = " + ") ∧
      (∀ i, i < 4 → ∃! j, j < 4 ∧ Queens.isMarker grid i j) ∧
      (∀ j, j < 4 → ∃! i, i < 4 ∧ Queens.isMarker grid i j) ∧
      (grid.map (fun cells => cells.count " Q ")).sum = 4 :=
  Queens.pboard_prints_solution.1 true 4 5 (Queens.init 4) (by decide) (by decide)
    (Queens.init_dims 4) (by decide)
    ((Search.exists_nonAttacking_iff 4).2 (by decide))

theorem Queens.board_untouched_without_solution_witness :
    ∃ st1, Queens.nqueens true 3 4 0 (Queens.init 3) = some st1 ∧
      (st1.solutions = (Queens.init 3).solutions → st1.board = (Queens.init 3).board) ∧
      ((3 : Nat) = 2 ∨ (3 : Nat) = 3 →
        st1.solutions = (Queens.init 3).solutions ∧ st1.board = (Queens.init 3).board ∧
        Queens.pboard 3 st1.board = Queens.pboard 3 (Queens.init 3).board) :=
  Queens.board_untouched_without_solution true 3 4 (by decide) (Queens.init 3) (by decide)
    (Queens.init_dims 3)

theorem search_context_invariant_witness :
    (∃ st1 log, Queens.nqueensT true 4 5 0 (Queens.init 4, []) = some (st1, log) ∧
      Queens.nqueens true 4 5 0 (Queens.init 4) = some st1 ∧ log ≠ [] ∧
      ∀ c ∈ log, Search.Valid 4 (c.entry.take c.col) ∧
        ∀ k, k ≤ c.col → c.exit_.take k = c.entry.take k) ∧
    (∃ st1 log, QueensPth.nqueensT 4 2 5 0 1 (QueensPth.init 4, []) = some (st1, log) ∧
      QueensPth.nqueens 4 2 5 0 1 (QueensPth.init 4) = some st1 ∧ log ≠ [] ∧
      ∀ c ∈ log, Search.Valid 4 (c.entry.take c.col) ∧
        ∀ k, k ≤ c.col → c.exit_.take k = c.entry.take k) :=
  search_context_invariant true 4 2 1 5 (by decide) (by decide) (by decide)
    (Queens.init 4) (by decide) (Queens.init_dims 4)
    (QueensPth.init 4) (QueensPth.init_wellFormed 4)

theorem search_terminates_witness :
    (∃ st1 log, Queens.nqueens true 4 5 0 (Queens.init 4) = some st1 ∧
      Queens.nqueensT true 4 5 0 (Queens.init 4, []) = some (st1, log) ∧
      ∀ c ∈ log, c.col ≤ 4 ∧ c.budget = 5 - c.col ∧ 0 < c.budget) ∧
    (∃ st1 log, QueensPth.nqueens 4 2 5 0 1 (QueensPth.init 4) = some st1 ∧
      QueensPth.nqueensT 4 2 5 0 1 (QueensPth.init 4, []) = some (st1, log) ∧
      ∀ c ∈ log, c.col ≤ 4 ∧ c.budget = 5 - c.col ∧ 0 < c.budget) :=
  search_terminates true 4 2 1 5 (by decide) (by decide) (by decide)
    (Queens.init 4) (by decide) (Queens.init_dims 4)
    (QueensPth.init 4) (QueensPth.init_wellFormed 4)

theorem QueensPth.no_placement_at_last_column_witness :
    ∃ st1 log, QueensPth.nqueens 4 2 5 0 1 (QueensPth.init 4) = some st1 ∧
      QueensPth.nqueensT 4 2 5 0 1 (QueensPth.init 4, []) = some (st1, log) ∧
      ∀ c ∈ log, c.col ≤ 4 ∧
        (c.col = 4 →
          c.entry.Perm (Search.rows 4) ∧
          (∀ (qo : List (List Int)) (i : Int), qo[1]? = some c.entry → 0 ≤ i →
            i < ((4 : Nat) : Int) → ∃ j, QueensPth.scan qo i 4 1 4 0 = some j ∧ j < 4) ∧
          c.exit_ = c.entry) :=
  QueensPth.no_placement_at_last_column 4 2 1 5 (by decide) (by decide) (by decide)
    (QueensPth.init 4) (QueensPth.init_wellFormed 4)

theorem QueensPth.more_threads_than_queens_witness :
    (∀ t, 4 ≤ t → QueensPth.start_thread 4 8 5 t (QueensPth.init 4) = none) ∧
    QueensPth.main_total 4 8 5 (QueensPth.init 4) = none :=
  ⟨(QueensPth.more_threads_than_queens 4 8 5 (by decide) (by decide) (by decide)
      (QueensPth.init 4) (QueensPth.init_wellFormed 4)).2.2.2.1,
    (QueensPth.more_threads_than_queens 4 8 5 (by decide) (by decide) (by decide)
      (QueensPth.init 4) (QueensPth.init_wellFormed 4)).2.2.2.2.1⟩

theorem QueensPth.read_after_own_join_witness :
    (QueensPth.main_actions 3)[4]? = some (QueensPth.Action.read 0) ∧
    (∃ n : Nat, n < 4 ∧ (QueensPth.main_actions 3)[n]? = some (QueensPth.Action.join 0)) ∧
    (∃ n : Nat, 4 < n ∧ (QueensPth.main_actions 3)[n]? = some (QueensPth.Action.join 2)) :=
  ⟨by decide,
    ((QueensPth.read_after_own_join 3).2 4 0 (by decide)).2.2.1 0 (by decide),
    ((QueensPth.read_after_own_join 3).2 4 0 (by decide)).2.2.2.1 2 (by decide) (by decide)⟩
